import Mathlib

/-! # helm-schema-gen: path resolution and annotation patching

A shallow embedding of `cmd/root.go`.

* Go strings are modelled by `String` (sequences of characters); every separator
  the program splits on is a single ASCII character.
* A Go `map[string]any` is an association list read by first match; `m[k]` on an
  absent key yields the nil interface, which is also what a JSON `null` decodes to.
* A Go panic (failed type assertion) is `none` in an `Option` result.
* The schema tree is built by `json.Unmarshal`, so no two places of it share a map:
  the in-place write `child[k] = v` on the node `walk` returned is the tree with that
  node rebuilt along the path that `walk` followed.
-/

namespace HelmSchemaGen

/-! ## Data model -/

/-- Go values of type `any` that occur in the schema tree: what `json.Unmarshal`
produces (nil, bool, float64, string, `[]any`, `map[string]any`) and what the
handlers store (`[]string`, `int64`). -/
inductive JVal where
  | null
  | bool (b : Bool)
  | num (x : Rat)
  | str (s : String)
  | int (i : Int)
  | strs (xs : List String)
  | arr (xs : List JVal)
  | obj (m : List (String × JVal))

/-- A Go `map[string]any`. -/
abbrev JObj := List (String × JVal)

/-- Map read `m[k]`: the first entry for `k`, the nil interface when there is none. -/
def index : JObj → String → JVal
  | [], _ => JVal.null
  | (k', v) :: rest, k => if k' = k then v else index rest k

/-- Map write `m[k] = v`: overwrite the entry for `k`, or add one. -/
def assign : JObj → String → JVal → JObj
  | [], k, v => [(k, v)]
  | (k', v') :: rest, k, v => if k' = k then (k, v) :: rest else (k', v') :: assign rest k v

/-- Type assertion `x.(map[string]any)`; `none` is the panic. -/
def asMap : JVal → Option JObj
  | JVal.obj m => some m
  | _ => none

/-! ## `strings` -/

/-- Splitting a character sequence around every occurrence of one separator. -/
def splitChars (sep : Char) : List Char → List (List Char)
  | [] => [[]]
  | c :: cs =>
    if c = sep then [] :: splitChars sep cs
    else
      match splitChars sep cs with
      | [] => [[c]]
      | h :: t => (c :: h) :: t

/-- Go `strings.Split(s, sep)` for a one-character `sep`, as at all three call sites. -/
def strings.Split (s : String) (sep : Char) : List String :=
  (splitChars sep s.data).map String.mk

/-- Go `strings.HasPrefix(s, p)`. -/
def strings.HasPrefix (s p : String) : Bool :=
  p.data.isPrefixOf s.data

/-! ## `walk` (root.go 16-21) -/

/-- The `for` loop of `walk` over the remaining segments. -/
def walkLoop : List String → JObj → Option JObj
  | [], jsonValues => some jsonValues
  | subkey :: rest, jsonValues =>
    match asMap (index jsonValues "properties") with
    | none => none
    | some props =>
      match asMap (index props subkey) with
      | none => none
      | some child => walkLoop rest child

/-- Go `walk(key, value, jsonValues)`; `value` is not used by the body. -/
def walk (key : String) (_value : String) (jsonValues : JObj) : Option JObj :=
  walkLoop (strings.Split key '.') jsonValues

/-- The tree after the node reached along `segs` has been replaced by `child'`
(the effect on the tree of a write into the map `walk` returned). -/
def writeBack : List String → JObj → JObj → JObj
  | [], child', _ => child'
  | subkey :: rest, child', node =>
    match asMap (index node "properties") with
    | none => node
    | some props =>
      match asMap (index props subkey) with
      | none => node
      | some child =>
        assign node "properties"
          (JVal.obj (assign props subkey (JVal.obj (writeBack rest child' child))))

/-! ## `strconv.ParseInt` (Go standard library) -/

/-- The two causes a `strconv` conversion fails with. -/
inductive NumErr where
  | ErrSyntax
  | ErrRange
  deriving DecidableEq

/-- Go `*strconv.NumError`. -/
structure NumError where
  Func : String
  Num : String
  Err : NumErr
  deriving DecidableEq

/-- The digit value `ParseUint` reads from one byte: `c - '0'` for a decimal digit,
`lower(c) - 'a' + 10` for a letter (`lower(c) = c | 0x20`), no value otherwise. -/
def digitVal (c : Char) : Option Nat :=
  if 48 ≤ c.toNat ∧ c.toNat ≤ 57 then some (c.toNat - 48)
  else if 97 ≤ (c.toNat ||| 32) ∧ (c.toNat ||| 32) ≤ 122 then some ((c.toNat ||| 32) - 97 + 10)
  else none

/-- The digit loop of `strconv.ParseUint` on `uint64` arithmetic: the value and the
error cause it stops with. -/
def ParseUintLoop (base maxVal cutoff : Nat) : List Char → Nat → Nat × Option NumErr
  | [], n => (n, none)
  | c :: cs, n =>
    match digitVal c with
    | none => (0, some NumErr.ErrSyntax)
    | some d =>
      if d ≥ base then (0, some NumErr.ErrSyntax)
      else if n ≥ cutoff then (maxVal, some NumErr.ErrRange)
      else
        let n' := (n * base) % 2 ^ 64
        let n1 := (n' + d) % 2 ^ 64
        if n1 < n' ∨ n1 > maxVal then (maxVal, some NumErr.ErrRange)
        else ParseUintLoop base maxVal cutoff cs n1

/-- Go `strconv.ParseUint(s, base, bitSize)` for an explicit base `2..36` and a bit
size `1..64`. -/
def ParseUint (s : List Char) (base bitSize : Nat) : Nat × Option NumErr :=
  if s = [] then (0, some NumErr.ErrSyntax)
  else ParseUintLoop base (2 ^ bitSize - 1) ((2 ^ 64 - 1) / base + 1) s 0

/-- Go `strconv.ParseInt(s, base, bitSize)` for an explicit base `2..36` and a bit
size `1..64`: the value and the error (`none` is the nil error). -/
def ParseInt (s : String) (base bitSize : Nat) : Int × Option NumError :=
  match s.data with
  | [] => (0, some ⟨"ParseInt", s, NumErr.ErrSyntax⟩)
  | c :: cs =>
    let neg : Bool := decide (c = '-')
    let body := if c = '+' ∨ c = '-' then cs else c :: cs
    match ParseUint body base bitSize with
    | (_, some NumErr.ErrSyntax) => (0, some ⟨"ParseInt", s, NumErr.ErrSyntax⟩)
    | (un, _) =>
      let cutoff : Nat := 2 ^ (bitSize - 1)
      if !neg && decide (un ≥ cutoff) then
        ((cutoff : Int) - 1, some ⟨"ParseInt", s, NumErr.ErrRange⟩)
      else if neg && decide (un > cutoff) then
        (-(cutoff : Int), some ⟨"ParseInt", s, NumErr.ErrRange⟩)
      else (if neg then -(un : Int) else (un : Int), none)

/-! ## Errors -/

/-- Text of the cause, `ErrSyntax.Error()` and `ErrRange.Error()`. -/
def NumErr.Error : NumErr → String
  | NumErr.ErrSyntax => "invalid syntax"
  | NumErr.ErrRange => "value out of range"

/-- Go `(*NumError).Error()`; `quote` stands for `strconv.Quote`. -/
def NumError.Error (quote : String → String) (e : NumError) : String :=
  "strconv." ++ e.Func ++ ": parsing " ++ quote e.Num ++ ": " ++ e.Err.Error

/-- The error built at root.go 57 and 70 by
`fmt.Errorf("'%s' must return an integer : %v", s.key, err)`, kept as its two
arguments. -/
structure KeyError where
  key : String
  err : NumError
  deriving DecidableEq

/-- The message of a `KeyError`: the format string of root.go 57/70 filled in. -/
def KeyError.Error (quote : String → String) (e : KeyError) : String :=
  "'" ++ e.key ++ "' must return an integer : " ++ e.err.Error quote

/-- Go `errors.Join`: nil when every argument is nil, else the non-nil ones in order. -/
def errors.Join (errs : List (Option KeyError)) : Option (List KeyError) :=
  match errs.filterMap id with
  | [] => none
  | es => some es

/-- Message of a joined error: the messages separated by newlines. -/
def joinedError (quote : String → String) (es : List KeyError) : String :=
  "\n".intercalate (es.map (KeyError.Error quote))

/-! ## The directive handlers (root.go 23-75) -/

structure extractSource where
  option : String
  key : String
  value : String
  jsonValues : JObj

/-- What a handler leaves behind: `none` when it panicked, else the schema tree
after its writes and the error it returned. -/
abbrev Handled := Option (JObj × Option KeyError)

/-- The loop `for _, v := range ... { enums = append(enums, v) }`. -/
def appendAll (vs : List String) : List String :=
  vs.foldl (fun enums v => enums ++ [v]) []

def extractEnums (s : extractSource) : Handled :=
  if s.option = "@schemaEnum" then
    match walk s.key s.value s.jsonValues with
    | none => none
    | some child =>
      let enums := appendAll (strings.Split s.value ',')
      some (writeBack (strings.Split s.key '.') (assign child "enum" (JVal.strs enums))
        s.jsonValues, none)
  else some (s.jsonValues, none)

def extractRegex (s : extractSource) : Handled :=
  if s.option = "@schemaRegex" then
    match walk s.key s.value s.jsonValues with
    | none => none
    | some child =>
      some (writeBack (strings.Split s.key '.') (assign child "pattern" (JVal.str s.value))
        s.jsonValues, none)
  else some (s.jsonValues, none)

def extractMinimum (s : extractSource) : Handled :=
  if s.option = "@schemaMinimum" then
    match walk s.key s.value s.jsonValues with
    | none => none
    | some child =>
      match ParseInt s.value 10 32 with
      | (_, some err) => some (s.jsonValues, some ⟨s.key, err⟩)
      | (v, none) =>
        some (writeBack (strings.Split s.key '.') (assign child "minimum" (JVal.int v))
          s.jsonValues, none)
  else some (s.jsonValues, none)

def extractMaximum (s : extractSource) : Handled :=
  if s.option = "@schemaMaximum" then
    match walk s.key s.value s.jsonValues with
    | none => none
    | some child =>
      match ParseInt s.value 10 32 with
      | (_, some err) => some (s.jsonValues, some ⟨s.key, err⟩)
      | (v, none) =>
        some (writeBack (strings.Split s.key '.') (assign child "maximum" (JVal.int v))
          s.jsonValues, none)
  else some (s.jsonValues, none)

/-! ## The patch loop of `RunE` (root.go 116-135) -/

/-- Lines 126-131: the four handlers in turn on the shared tree, then `errors.Join`.
`none` when one of them panicked. -/
def runHandlers (vars : extractSource) : Option (JObj × Option (List KeyError)) :=
  match extractEnums vars with
  | none => none
  | some (t1, err1) =>
    match extractRegex { vars with jsonValues := t1 } with
    | none => none
    | some (t2, err2) =>
      match extractMinimum { vars with jsonValues := t2 } with
      | none => none
      | some (t3, err3) =>
        match extractMaximum { vars with jsonValues := t3 } with
        | none => none
        | some (t4, err4) => some (t4, errors.Join [err1, err2, err3, err4])

/-- The body of the loop for one line `s` (lines 117-134): the tree afterwards and
the error the body returns with, if any. -/
def processLine (s : String) (jsonValues : JObj) : Option (JObj × Option (List KeyError)) :=
  let params := strings.Split s ' '
  if strings.HasPrefix s "##" && decide (params.length > 3) then
    runHandlers
      { option := params.getD 1 "", key := params.getD 2 "", value := params.getD 3 "",
        jsonValues := jsonValues }
  else some (jsonValues, none)

/-- How the patch loop ends. -/
inductive Patched where
  | panicked
  | failed (err : List KeyError)
  | finished (jsonValues : JObj)

/-- The loop of lines 116-135 over the lines still to read. -/
def patchLoop : List String → JObj → Patched
  | [], jsonValues => Patched.finished jsonValues
  | s :: rest, jsonValues =>
    match processLine s jsonValues with
    | none => Patched.panicked
    | some (_, some err) => Patched.failed err
    | some (jsonValues', none) => patchLoop rest jsonValues'

/-- Lines 116-135 on the file contents. -/
def patch (valuesFileData : String) (jsonValues : JObj) : Patched :=
  patchLoop (strings.Split valuesFileData '\n') jsonValues

/-! ## The decoded YAML value and the schema inferencer -/

/-- A decoded YAML value: mapping, sequence, string, integer, float, boolean or null. -/
inductive YVal where
  | null
  | bool (b : Bool)
  | int (i : Int)
  | float (x : Rat)
  | str (s : String)
  | seq (xs : List YVal)
  | map (m : List (String × YVal))

mutual
/-- Modelled from the spec: the Schema Inferencer (the `ReadDeep` of the schema
generator library, whose code is not part of the sources). A mapping yields
`"type": "object"` and a `"properties"` mapping with one child per key; a sequence
yields `"type": "array"`, with `"items"` inferred from the first element when there
is one; a scalar yields its type tag. -/
def inferNode : YVal → JObj
  | YVal.null => [("type", JVal.str "null")]
  | YVal.bool _ => [("type", JVal.str "boolean")]
  | YVal.int _ => [("type", JVal.str "integer")]
  | YVal.float _ => [("type", JVal.str "number")]
  | YVal.str _ => [("type", JVal.str "string")]
  | YVal.seq [] => [("type", JVal.str "array")]
  | YVal.seq (x :: _) => [("type", JVal.str "array"), ("items", JVal.obj (inferNode x))]
  | YVal.map m => [("type", JVal.str "object"), ("properties", JVal.obj (inferProps m))]
/-- Modelled from the spec: the children of an inferred object node, one per key of
the mapping, under the same key. -/
def inferProps : List (String × YVal) → JObj
  | [] => []
  | (k, v) :: rest => (k, JVal.obj (inferNode v)) :: inferProps rest
end

/-- Modelled from the spec: the Schema Inferencer at the root, which fails with a
ShapeError (`none`) unless the root is a mapping. -/
def inferSchema : YVal → Option JObj
  | YVal.map m => some (inferNode (YVal.map m))
  | _ => none

/-- The value under key `k` of a mapping (first entry), if any. -/
def yamlField : List (String × YVal) → String → Option YVal
  | [], _ => none
  | (k', v) :: rest, k => if k' = k then some v else yamlField rest k

/-- The value reached from `v` through the nested keys `ks`, when each key exists. -/
def yamlAt : List String → YVal → Option YVal
  | [], v => some v
  | k :: ks, YVal.map m =>
    match yamlField m k with
    | none => none
    | some v => yamlAt ks v
  | _ :: _, _ => none

/-- The dotted key path of a list of nested keys. -/
def dottedPath : List String → String
  | [] => ""
  | [k] => k
  | k :: k' :: ks => k ++ "." ++ dottedPath (k' :: ks)

/-! ## `RunE` (root.go 88-143) -/

/-- The collaborators of `RunE` that live outside this repository. -/
structure Externals where
  /-- Go `os.ReadFile`: the contents, or the text of the error. -/
  ReadFile : String → Except String String
  /-- Go `yaml.Unmarshal(data, &values)`: `values` as it is left, and the error. -/
  yamlUnmarshal : String → YVal × Option String
  /-- The text `s.String()` after `s.ReadDeep(values)`. -/
  schemaString : YVal → String
  /-- Go `json.Unmarshal` into a `map[string]any`. -/
  jsonUnmarshal : String → Except String JObj
  /-- Go `json.MarshalIndent(v, "", "  ")`. -/
  MarshalIndent : JObj → Except String String

/-- The non-nil errors `RunE` returns. -/
inductive RunError where
  /-- Lines 90 and 93, with the message. -/
  | usage (msg : String)
  /-- Lines 101 and 113: "error when reading file '%s': %v". -/
  | reading (path cause : String)
  /-- Line 132: the joined handler errors. -/
  | directives (errs : List KeyError)
  /-- Line 139: "error when decoding json: %v". -/
  | encoding (cause : String)

/-- How a run of the command ends: aborted by a panic, `RunE` returned an error
(printed by `Execute`, exit status 1), or the schema text was printed and `RunE`
returned nil. -/
inductive RunResult where
  | panicked
  | returned (err : RunError)
  | printed (j : String)

def RunE (ext : Externals) (args : List String) : RunResult :=
  match args with
  | [] => RunResult.returned (RunError.usage "pass one values yaml file")
  | [valuesFilePath] =>
    match ext.ReadFile valuesFilePath with
    | Except.error err => RunResult.returned (RunError.reading valuesFilePath err)
    | Except.ok valuesFileData =>
      -- line 103: the error of yaml.Unmarshal is assigned and overwritten at line 111
      let values := (ext.yamlUnmarshal valuesFileData).1
      match ext.jsonUnmarshal (ext.schemaString values) with
      | Except.error err => RunResult.returned (RunError.reading valuesFilePath err)
      | Except.ok jsonValues =>
        match patch valuesFileData jsonValues with
        | Patched.panicked => RunResult.panicked
        | Patched.failed err => RunResult.returned (RunError.directives err)
        | Patched.finished jsonValues' =>
          match ext.MarshalIndent jsonValues' with
          | Except.error err => RunResult.returned (RunError.encoding err)
          | Except.ok j => RunResult.printed j
  | _ :: _ :: _ =>
    RunResult.returned (RunError.usage "schema can be generated only for one values yaml at once")

/-! ## Notions the statements are written in -/

/-- The descent the Path Resolver is specified by: `Resolves root segs node` when,
starting at `root` and replacing the current node by `current["properties"][segment]`
for each segment from left to right, every step finds a mapping and the last one
is `node`. -/
inductive Resolves : JObj → List String → JObj → Prop where
  | done (node : JObj) : Resolves node [] node
  | step {cur props child node : JObj} {seg : String} {rest : List String}
      (hprops : index cur "properties" = JVal.obj props)
      (hchild : index props seg = JVal.obj child)
      (hrest : Resolves child rest node) : Resolves cur (seg :: rest) node

/-- A step of the descent cannot be taken from `cur` with segment `seg`: `cur` has no
`"properties"` entry that is a mapping, or that mapping has no mapping-valued entry
for `seg`. -/
def StepFails (cur : JObj) (seg : String) : Prop :=
  asMap (index cur "properties") = none ∨
    ∃ props, index cur "properties" = JVal.obj props ∧ asMap (index props seg) = none

/-- Two trees resolve the same paths: a descent fails in one exactly when it fails in
the other. -/
def SameShape (a b : JObj) : Prop :=
  ∀ segs : List String, walkLoop segs a = none ↔ walkLoop segs b = none

/-- A small schema tree: an object with the integer property `port` and the object
property `database`, which has the string property `host`. -/
def sampleRoot : JObj :=
  [("type", JVal.str "object"),
   ("properties", JVal.obj
     [("port", JVal.obj [("type", JVal.str "integer")]),
      ("database", JVal.obj
        [("type", JVal.str "object"),
         ("properties", JVal.obj [("host", JVal.obj [("type", JVal.str "string")])])])])]

/-- A decimal digit, `'0'` to `'9'`. -/
def isDecimalDigit (c : Char) : Bool :=
  decide (48 ≤ c.toNat ∧ c.toNat ≤ 57)

/-- The number a sequence of decimal digits denotes, continuing from `n`. -/
def decimalFrom (n : Nat) (ds : List Char) : Nat :=
  ds.foldl (fun n c => 10 * n + (c.toNat - 48)) n

/-- The integer a base-10 signed integer literal denotes: an optional sign `+` or `-`
followed by one or more decimal digits. `none` when the string is not such a
literal. -/
def literalValue (s : String) : Option Int :=
  match s.data with
  | [] => none
  | c :: cs =>
    let ds := if c = '+' ∨ c = '-' then cs else c :: cs
    if ds ≠ [] ∧ ds.all isDecimalDigit = true then
      some (if c = '-' then -(decimalFrom 0 ds : Int) else (decimalFrom 0 ds : Int))
    else none

/-- Collaborators for a run on a file with contents `data` whose inferred schema decodes
to `root`; the printed text is the empty string. -/
def fixedExternals (data : String) (root : JObj) : Externals where
  ReadFile := fun _ => Except.ok data
  yamlUnmarshal := fun _ => (YVal.null, none)
  schemaString := fun _ => ""
  jsonUnmarshal := fun _ => Except.ok root
  MarshalIndent := fun _ => Except.ok ""

/-- The comment line `## <option> <key> <value>`. -/
def directiveLine (opt key value : String) : String :=
  "## " ++ opt ++ " " ++ key ++ " " ++ value

/-- The four option tokens the handlers test for. -/
def optionTokens : List String :=
  ["@schemaEnum", "@schemaRegex", "@schemaMinimum", "@schemaMaximum"]

/-- Go `strings.Join(elems, sep)` for a one-character `sep`. -/
def strings.Join (elems : List String) (sep : Char) : String :=
  String.mk (List.intercalate [sep] (elems.map String.data))

/-- The line cut after its fourth space-separated field. -/
def firstFour (s : String) : String :=
  strings.Join ((strings.Split s ' ').take 4) ' '

/-- A schema tree whose `port` node already has a `"minimum"` and a `"maximum"`. -/
def boundedRoot : JObj :=
  [("type", JVal.str "object"),
   ("properties", JVal.obj
     [("port", JVal.obj
       [("type", JVal.str "integer"), ("minimum", JVal.int 1), ("maximum", JVal.int 9)])])]

/-- Collaborators for a run on the file `a: [1`, which the YAML decoder rejects: the
decoder leaves `values` empty and returns an error, the schema of the empty mapping
is generated and decoded, and the encoder prints it. -/
def rejectingExternals : Externals where
  ReadFile := fun _ => Except.ok "a: [1"
  yamlUnmarshal := fun _ =>
    (YVal.map [], some "yaml: line 1: did not find expected ',' or ']'")
  schemaString := fun _ => "\x7b\"type\": \"object\", \"properties\": \x7b\x7d\x7d"
  jsonUnmarshal := fun _ => Except.ok (inferNode (YVal.map []))
  MarshalIndent := fun _ => Except.ok "\x7b\n  \"properties\": \x7b\x7d,\n  \"type\": \"object\"\n\x7d"

/-- The four entries the handlers write. -/
def patchedKeys : List String :=
  ["enum", "pattern", "minimum", "maximum"]

/-- The entry the handler of an option token writes: `extractEnums` writes `"enum"`,
`extractRegex` `"pattern"`, `extractMinimum` `"minimum"`, `extractMaximum`
`"maximum"`; no handler tests for another token. -/
def entryOf (opt : String) : Option String :=
  if opt = "@schemaEnum" then some "enum"
  else if opt = "@schemaRegex" then some "pattern"
  else if opt = "@schemaMinimum" then some "minimum"
  else if opt = "@schemaMaximum" then some "maximum"
  else none

/-- The value the handler of a recognised token stores for the payload `value`, or the
error of `ParseInt` in the two numeric handlers. -/
def payloadOf (opt value : String) : Except NumError JVal :=
  if opt = "@schemaEnum" then Except.ok (JVal.strs (strings.Split value ','))
  else if opt = "@schemaRegex" then Except.ok (JVal.str value)
  else
    match ParseInt value 10 32 with
    | (v, none) => Except.ok (JVal.int v)
    | (_, some e) => Except.error e

/-- The path `p` is the one a line addresses as a directive: the line starts with `##`,
has at least four fields, its second field is a recognised token and `p` is its
third field split at the dots. -/
def LineTarget (line : String) (p : List String) : Prop :=
  strings.HasPrefix line "##" = true ∧ 3 < (strings.Split line ' ').length ∧
    (strings.Split line ' ').getD 1 "" ∈ optionTokens ∧
    p = strings.Split ((strings.Split line ' ').getD 2 "") '.'

/-- The path `p` is addressed by some directive line of the text. -/
def IsTarget (data : String) (p : List String) : Prop :=
  ∃ line ∈ strings.Split data '\n', LineTarget line p

mutual
/-- A value read as a schema node: a mapping loses the four entries, see `eraseNode`. -/
def eraseNodeVal : JVal → JVal
  | JVal.obj m => JVal.obj (eraseNode m)
  | v => v
/-- A value read as a `"properties"` mapping: each child is read as a node. -/
def erasePropsVal : JVal → JVal
  | JVal.obj m => JVal.obj (eraseChildren m)
  | v => v
/-- A node without the four entries the handlers write, in the node itself and in
every node below it through `"properties"`; everything else is kept as it is. -/
def eraseNode : List (String × JVal) → List (String × JVal)
  | [] => []
  | (k, v) :: rest =>
    if k ∈ patchedKeys then eraseNode rest
    else if k = "properties" then (k, erasePropsVal v) :: eraseNode rest
    else (k, v) :: eraseNode rest
/-- The children of a `"properties"` mapping, each child node without the four entries. -/
def eraseChildren : List (String × JVal) → List (String × JVal)
  | [] => []
  | (k, v) :: rest => (k, eraseNodeVal v) :: eraseChildren rest
end

instance (line : String) (p : List String) : Decidable (LineTarget line p) :=
  inferInstanceAs (Decidable (strings.HasPrefix line "##" = true ∧
    3 < (strings.Split line ' ').length ∧
    (strings.Split line ' ').getD 1 "" ∈ optionTokens ∧
    p = strings.Split ((strings.Split line ' ').getD 2 "") '.'))

instance (data : String) (p : List String) : Decidable (IsTarget data p) :=
  inferInstanceAs (Decidable (∃ line ∈ strings.Split data '\n', LineTarget line p))

/-! ## Lemmas: maps -/

theorem index_assign_same (m : JObj) (k : String) (v : JVal) : index (assign m k v) k = v := by
  induction m with
  | nil => simp [assign, index]
  | cons e rest ih =>
    obtain ⟨k', v'⟩ := e
    by_cases h : k' = k
    · simp [assign, index, h]
    · simp [assign, index, h, ih]

theorem index_assign_other (m : JObj) (k k' : String) (v : JVal) (h : k ≠ k') :
    index (assign m k v) k' = index m k' := by
  induction m with
  | nil => simp [assign, index, h]
  | cons e rest ih =>
    obtain ⟨k₀, v₀⟩ := e
    by_cases h₀ : k₀ = k
    · subst h₀
      simp [assign, index, h]
    · simp only [assign, h₀, if_false, index, ih]

theorem asMap_obj (m : JObj) : asMap (JVal.obj m) = some m := rfl

theorem asMap_eq_some {v : JVal} {m : JObj} : asMap v = some m ↔ v = JVal.obj m := by
  cases v <;> simp [asMap]

/-! ## Lemmas: splitting -/

theorem splitChars_ne_nil (sep : Char) (cs : List Char) : splitChars sep cs ≠ [] := by
  induction cs with
  | nil => simp [splitChars]
  | cons c cs ih =>
    unfold splitChars
    split
    · simp
    · split <;> simp

theorem splitChars_not_mem (sep : Char) (cs : List Char) (h : sep ∉ cs) :
    splitChars sep cs = [cs] := by
  induction cs with
  | nil => simp [splitChars]
  | cons c cs ih =>
    have hc : c ≠ sep := fun e => h (by simp [e])
    have hcs : sep ∉ cs := fun e => h (by simp [e])
    simp [splitChars, hc, ih hcs]

theorem splitChars_append_sep (sep : Char) (xs ys : List Char) (h : sep ∉ xs) :
    splitChars sep (xs ++ sep :: ys) = xs :: splitChars sep ys := by
  induction xs with
  | nil => simp [splitChars]
  | cons c cs ih =>
    have hc : c ≠ sep := fun e => h (by simp [e])
    have hcs : sep ∉ cs := fun e => h (by simp [e])
    simp [splitChars, hc, ih hcs]

theorem splitChars_intercalate (sep : Char) (cs : List Char) :
    List.intercalate [sep] (splitChars sep cs) = cs := by
  induction cs with
  | nil => simp [splitChars, List.intercalate]
  | cons c cs ih =>
    unfold splitChars
    by_cases hc : c = sep
    · simp only [hc, if_true]
      have hne := splitChars_ne_nil sep cs
      cases hs : splitChars sep cs with
      | nil => exact absurd hs hne
      | cons h t =>
        rw [hs] at ih
        simp [List.intercalate] at ih ⊢
        exact ih
    · simp only [hc, if_false]
      have hne := splitChars_ne_nil sep cs
      cases hs : splitChars sep cs with
      | nil => exact absurd hs hne
      | cons h t =>
        rw [hs] at ih
        cases t with
        | nil => simp [List.intercalate] at ih ⊢; exact ih
        | cons t₀ ts => simp [List.intercalate] at ih ⊢; exact ih

theorem splitChars_sep_not_mem (sep : Char) (cs : List Char) :
    ∀ frag ∈ splitChars sep cs, sep ∉ frag := by
  induction cs with
  | nil => simp [splitChars]
  | cons c cs ih =>
    unfold splitChars
    by_cases hc : c = sep
    · simp only [hc, if_true]
      intro frag hf
      rcases List.mem_cons.1 hf with rfl | hf
      · simp
      · exact ih frag hf
    · simp only [hc, if_false]
      cases hs : splitChars sep cs with
      | nil => simp; exact fun e => hc e.symm
      | cons h t =>
        rw [hs] at ih
        intro frag hf
        rcases List.mem_cons.1 hf with rfl | hf
        · have := ih h (by simp)
          simp [this]
          exact fun e => hc e.symm
        · exact ih frag (by simp [hf])

theorem Split_no_sep (s : String) (sep : Char) (h : sep ∉ s.data) :
    strings.Split s sep = [s] := by
  simp [strings.Split, splitChars_not_mem sep s.data h]

theorem appendAll_eq (vs : List String) : appendAll vs = vs := by
  have h : ∀ (acc : List String), vs.foldl (fun enums v => enums ++ [v]) acc = acc ++ vs := by
    induction vs with
    | nil => simp
    | cons v vs ih => intro acc; simp [ih]
  simpa [appendAll] using h []

/-! ## Lemmas: `walk` -/

theorem walkLoop_cons (seg : String) (rest : List String) (root : JObj) :
    walkLoop (seg :: rest) root =
      (asMap (index root "properties")).bind
        (fun props => (asMap (index props seg)).bind (walkLoop rest)) := by
  rw [walkLoop]
  cases hp : asMap (index root "properties") with
  | none => rfl
  | some props =>
    show (match asMap (index props seg) with
      | none => none
      | some child => walkLoop rest child) = (asMap (index props seg)).bind (walkLoop rest)
    cases hc : asMap (index props seg) <;> rfl

theorem walkLoop_append (p q : List String) (root : JObj) :
    walkLoop (p ++ q) root = (walkLoop p root).bind (walkLoop q) := by
  induction p generalizing root with
  | nil => simp [walkLoop]
  | cons seg rest ih =>
    simp only [List.cons_append, walkLoop_cons]
    cases asMap (index root "properties") with
    | none => simp
    | some props =>
      simp only [Option.some_bind]
      cases asMap (index props seg) with
      | none => simp
      | some child => simpa using ih child

theorem walkLoop_eq_some_iff (segs : List String) (root node : JObj) :
    walkLoop segs root = some node ↔ Resolves root segs node := by
  induction segs generalizing root with
  | nil =>
    constructor
    · intro h
      simp [walkLoop] at h
      subst h
      exact Resolves.done _
    · intro h
      cases h
      simp [walkLoop]
  | cons seg rest ih =>
    constructor
    · intro h
      rw [walkLoop_cons] at h
      cases hp : asMap (index root "properties") with
      | none => simp [hp] at h
      | some props =>
        cases hc : asMap (index props seg) with
        | none => simp [hp, hc] at h
        | some child =>
          simp only [hp, hc, Option.some_bind] at h
          exact Resolves.step (asMap_eq_some.1 hp) (asMap_eq_some.1 hc) ((ih child).1 h)
    · intro h
      cases h with
      | step hprops hchild hrest =>
        simp only [walkLoop_cons, hprops, hchild, asMap_obj, Option.some_bind]
        exact (ih _).2 hrest

theorem walkLoop_single (seg : String) (root : JObj) :
    walkLoop [seg] root =
      (asMap (index root "properties")).bind (fun props => asMap (index props seg)) := by
  rw [walkLoop_cons]
  congr 1
  funext props
  cases asMap (index props seg) <;> simp [walkLoop]

theorem walkLoop_cons_none_iff (seg : String) (rest : List String) (root : JObj) :
    walkLoop (seg :: rest) root = none ↔
      StepFails root seg ∨ ∃ child, walkLoop [seg] root = some child ∧
        walkLoop rest child = none := by
  rw [walkLoop_cons, walkLoop_single]
  unfold StepFails
  cases hp : asMap (index root "properties") with
  | none => simp
  | some props =>
    have hp' := asMap_eq_some.1 hp
    cases hc : asMap (index props seg) with
    | none =>
      simp only [Option.some_bind, hc, Option.none_bind, true_iff]
      left; right
      exact ⟨props, hp', hc⟩
    | some child =>
      simp only [Option.some_bind, hc]
      constructor
      · intro h
        right
        exact ⟨child, rfl, h⟩
      · rintro (h | ⟨c, hc₁, hc₂⟩)
        · rcases h with h | ⟨props', h₁, h₂⟩
          · simp at h
          · rw [hp'] at h₁
            cases h₁
            rw [hc] at h₂
            simp at h₂
        · simp at hc₁
          subst hc₁
          exact hc₂

/-- The descent fails exactly when some step cannot be taken from the node the
steps before it reached. -/
theorem walkLoop_eq_none_iff (segs : List String) (root : JObj) :
    walkLoop segs root = none ↔
      ∃ pre seg post cur, segs = pre ++ seg :: post ∧ walkLoop pre root = some cur ∧
        StepFails cur seg := by
  induction segs generalizing root with
  | nil => simp [walkLoop]
  | cons s rest ih =>
    rw [walkLoop_cons_none_iff]
    constructor
    · rintro (h | ⟨child, h₁, h₂⟩)
      · exact ⟨[], s, rest, root, rfl, rfl, h⟩
      · obtain ⟨pre, seg, post, cur, e, hw, hf⟩ := (ih child).1 h₂
        refine ⟨s :: pre, seg, post, cur, by simp [e], ?_, hf⟩
        have := walkLoop_append [s] pre root
        simp only [List.singleton_append] at this
        rw [this, h₁]
        simpa using hw
    · rintro ⟨pre, seg, post, cur, e, hw, hf⟩
      cases pre with
      | nil =>
        simp at e
        obtain ⟨rfl, rfl⟩ := e
        simp [walkLoop] at hw
        subst hw
        exact Or.inl hf
      | cons p pre =>
        simp at e
        obtain ⟨rfl, rfl⟩ := e
        have := walkLoop_append [s] pre root
        simp only [List.singleton_append] at this
        rw [this] at hw
        cases h1 : walkLoop [s] root with
        | none => simp [h1] at hw
        | some child =>
          simp [h1] at hw
          right
          exact ⟨child, rfl, (ih child).2 ⟨pre, seg, post, cur, rfl, hw, hf⟩⟩

/-! ## Lemmas: writing into the node `walk` returned -/

theorem walkLoop_cons_eq_some {seg : String} {rest : List String} {root node : JObj}
    (h : walkLoop (seg :: rest) root = some node) :
    ∃ props child, asMap (index root "properties") = some props ∧
      asMap (index props seg) = some child ∧ walkLoop rest child = some node := by
  rw [walkLoop_cons] at h
  cases hp : asMap (index root "properties") with
  | none => simp [hp] at h
  | some props =>
    cases hc : asMap (index props seg) with
    | none => simp [hp, hc] at h
    | some child =>
      simp only [hp, hc, Option.some_bind] at h
      exact ⟨props, child, rfl, hc, h⟩

theorem writeBack_cons {seg : String} {rest : List String} {root props child : JObj}
    (child' : JObj) (hp : asMap (index root "properties") = some props)
    (hc : asMap (index props seg) = some child) :
    writeBack (seg :: rest) child' root =
      assign root "properties"
        (JVal.obj (assign props seg (JVal.obj (writeBack rest child' child)))) := by
  rw [writeBack]
  simp only [hp, hc]

/-- After the write, the path leads to the written node. -/
theorem walkLoop_writeBack (segs : List String) (root child child' : JObj)
    (h : walkLoop segs root = some child) :
    walkLoop segs (writeBack segs child' root) = some child' := by
  induction segs generalizing root with
  | nil => simp [walkLoop, writeBack]
  | cons seg rest ih =>
    obtain ⟨props, c, hp, hc, hr⟩ := walkLoop_cons_eq_some h
    rw [writeBack_cons child' hp hc, walkLoop_cons]
    simp only [index_assign_same, asMap_obj, Option.some_bind]
    exact ih c hr

theorem SameShape.refl (a : JObj) : SameShape a a := fun _ => Iff.rfl

theorem SameShape.trans {a b c : JObj} (h₁ : SameShape a b) (h₂ : SameShape b c) :
    SameShape a c := fun segs => (h₁ segs).trans (h₂ segs)

theorem walkLoop_assign (node : JObj) (k : String) (v : JVal) (hk : k ≠ "properties")
    (seg : String) (rest : List String) :
    walkLoop (seg :: rest) (assign node k v) = walkLoop (seg :: rest) node := by
  rw [walkLoop_cons, walkLoop_cons, index_assign_other node k "properties" v hk]

theorem SameShape_assign (node : JObj) (k : String) (v : JVal) (hk : k ≠ "properties") :
    SameShape (assign node k v) node := by
  intro segs
  cases segs with
  | nil => simp [walkLoop]
  | cons seg rest => rw [walkLoop_assign node k v hk]

theorem SameShape_writeBack (segs : List String) (root child child' : JObj)
    (h : walkLoop segs root = some child) (hs : SameShape child' child) :
    SameShape (writeBack segs child' root) root := by
  induction segs generalizing root with
  | nil =>
    simp [walkLoop] at h
    subst h
    simpa [writeBack] using hs
  | cons seg rest ih =>
    obtain ⟨props, c, hp, hc, hr⟩ := walkLoop_cons_eq_some h
    have ih' := ih c hr
    rw [writeBack_cons child' hp hc]
    intro q
    cases q with
    | nil => simp [walkLoop]
    | cons s q =>
      rw [walkLoop_cons, walkLoop_cons]
      simp only [index_assign_same, asMap_obj, Option.some_bind, hp]
      by_cases e : seg = s
      · subst e
        simp only [index_assign_same, asMap_obj, Option.some_bind, hc]
        exact ih' q
      · rw [index_assign_other _ _ _ _ e]

/-- A path that resolves in one of two trees of the same shape resolves in the other. -/
theorem SameShape.walk_none {a b : JObj} (h : SameShape a b) (key value : String)
    (hb : walk key value b = none) : walk key value a = none :=
  (h _).2 hb

/-! ## Lemmas: the handlers -/

theorem extractEnums_apply (key value : String) (root child : JObj)
    (h : walk key value root = some child) :
    extractEnums ⟨"@schemaEnum", key, value, root⟩ =
      some (writeBack (strings.Split key '.')
        (assign child "enum" (JVal.strs (strings.Split value ','))) root, none) := by
  simp [extractEnums, h, appendAll_eq]

theorem extractRegex_apply (key value : String) (root child : JObj)
    (h : walk key value root = some child) :
    extractRegex ⟨"@schemaRegex", key, value, root⟩ =
      some (writeBack (strings.Split key '.')
        (assign child "pattern" (JVal.str value)) root, none) := by
  simp [extractRegex, h]

theorem extractEnums_skip (opt key value : String) (root : JObj) (h : opt ≠ "@schemaEnum") :
    extractEnums ⟨opt, key, value, root⟩ = some (root, none) := by
  simp [extractEnums, h]

theorem extractRegex_skip (opt key value : String) (root : JObj) (h : opt ≠ "@schemaRegex") :
    extractRegex ⟨opt, key, value, root⟩ = some (root, none) := by
  simp [extractRegex, h]

theorem extractMinimum_skip (opt key value : String) (root : JObj)
    (h : opt ≠ "@schemaMinimum") :
    extractMinimum ⟨opt, key, value, root⟩ = some (root, none) := by
  simp [extractMinimum, h]

theorem extractMaximum_skip (opt key value : String) (root : JObj)
    (h : opt ≠ "@schemaMaximum") :
    extractMaximum ⟨opt, key, value, root⟩ = some (root, none) := by
  simp [extractMaximum, h]

theorem runHandlers_enum (key value : String) (root : JObj) :
    runHandlers ⟨"@schemaEnum", key, value, root⟩ =
      (extractEnums ⟨"@schemaEnum", key, value, root⟩).map
        (fun r => (r.1, r.2.map (fun x => [x]))) := by
  unfold runHandlers
  cases h : extractEnums ⟨"@schemaEnum", key, value, root⟩ with
  | none => rfl
  | some r =>
    obtain ⟨t, e⟩ := r
    simp only [Option.map_some']
    rw [extractRegex_skip _ _ _ _ (by decide)]
    simp only []
    rw [extractMinimum_skip _ _ _ _ (by decide)]
    simp only []
    rw [extractMaximum_skip _ _ _ _ (by decide)]
    simp only []
    cases e <;> rfl

theorem runHandlers_regex (key value : String) (root : JObj) :
    runHandlers ⟨"@schemaRegex", key, value, root⟩ =
      (extractRegex ⟨"@schemaRegex", key, value, root⟩).map
        (fun r => (r.1, r.2.map (fun x => [x]))) := by
  unfold runHandlers
  rw [extractEnums_skip _ _ _ _ (by decide)]
  simp only []
  cases h : extractRegex ⟨"@schemaRegex", key, value, root⟩ with
  | none => rfl
  | some r =>
    obtain ⟨t, e⟩ := r
    simp only [Option.map_some']
    rw [extractMinimum_skip _ _ _ _ (by decide)]
    simp only []
    rw [extractMaximum_skip _ _ _ _ (by decide)]
    simp only []
    cases e <;> rfl

theorem runHandlers_minimum (key value : String) (root : JObj) :
    runHandlers ⟨"@schemaMinimum", key, value, root⟩ =
      (extractMinimum ⟨"@schemaMinimum", key, value, root⟩).map
        (fun r => (r.1, r.2.map (fun x => [x]))) := by
  unfold runHandlers
  rw [extractEnums_skip _ _ _ _ (by decide)]
  simp only []
  rw [extractRegex_skip _ _ _ _ (by decide)]
  simp only []
  cases h : extractMinimum ⟨"@schemaMinimum", key, value, root⟩ with
  | none => rfl
  | some r =>
    obtain ⟨t, e⟩ := r
    simp only [Option.map_some']
    rw [extractMaximum_skip _ _ _ _ (by decide)]
    simp only []
    cases e <;> rfl

theorem runHandlers_maximum (key value : String) (root : JObj) :
    runHandlers ⟨"@schemaMaximum", key, value, root⟩ =
      (extractMaximum ⟨"@schemaMaximum", key, value, root⟩).map
        (fun r => (r.1, r.2.map (fun x => [x]))) := by
  unfold runHandlers
  rw [extractEnums_skip _ _ _ _ (by decide)]
  simp only []
  rw [extractRegex_skip _ _ _ _ (by decide)]
  simp only []
  rw [extractMinimum_skip _ _ _ _ (by decide)]
  simp only []
  cases h : extractMaximum ⟨"@schemaMaximum", key, value, root⟩ with
  | none => rfl
  | some r =>
    obtain ⟨t, e⟩ := r
    simp only [Option.map_some']
    cases e <;> rfl

theorem runHandlers_unrecognised (opt key value : String) (root : JObj)
    (h₁ : opt ≠ "@schemaEnum") (h₂ : opt ≠ "@schemaRegex") (h₃ : opt ≠ "@schemaMinimum")
    (h₄ : opt ≠ "@schemaMaximum") :
    runHandlers ⟨opt, key, value, root⟩ = some (root, none) := by
  unfold runHandlers
  rw [extractEnums_skip _ _ _ _ h₁]
  simp only []
  rw [extractRegex_skip _ _ _ _ h₂]
  simp only []
  rw [extractMinimum_skip _ _ _ _ h₃]
  simp only []
  rw [extractMaximum_skip _ _ _ _ h₄]
  rfl

/-! ## Lemmas: `ParseInt` -/

theorem digitVal_of_digit (c : Char) (h : isDecimalDigit c = true) :
    digitVal c = some (c.toNat - 48) ∧ c.toNat - 48 < 10 := by
  simp only [isDecimalDigit, decide_eq_true_eq] at h
  refine ⟨by simp [digitVal, h], by omega⟩

theorem digit_of_digitVal (c : Char) (d : Nat) (h : digitVal c = some d) (hd : d < 10) :
    isDecimalDigit c = true := by
  unfold digitVal at h
  simp only [isDecimalDigit, decide_eq_true_eq]
  split at h
  · assumption
  · split at h
    · simp only [Option.some.injEq] at h
      omega
    · simp at h

theorem le_decimalFrom (n : Nat) (ds : List Char) : n ≤ decimalFrom n ds := by
  induction ds generalizing n with
  | nil => simp [decimalFrom]
  | cons c cs ih =>
    have := ih (10 * n + (c.toNat - 48))
    simp only [decimalFrom, List.foldl_cons] at this ⊢
    omega

/-- On decimal digits whose value fits the bit size, the digit loop returns the value. -/
theorem ParseUintLoop_digits (cs : List Char) (n : Nat)
    (hd : ∀ c ∈ cs, isDecimalDigit c = true) (hv : decimalFrom n cs ≤ 4294967295) :
    ParseUintLoop 10 4294967295 1844674407370955162 cs n = (decimalFrom n cs, none) := by
  induction cs generalizing n with
  | nil => simp [ParseUintLoop, decimalFrom]
  | cons c cs ih =>
    obtain ⟨hdv, hlt⟩ := digitVal_of_digit c (hd c (by simp))
    have hstep : decimalFrom n (c :: cs) = decimalFrom (10 * n + (c.toNat - 48)) cs := by
      simp [decimalFrom]
    have h₁ := le_decimalFrom (10 * n + (c.toNat - 48)) cs
    rw [hstep] at hv ⊢
    have hmod₁ : n * 10 % 18446744073709551616 = n * 10 := Nat.mod_eq_of_lt (by omega)
    have hmod₂ : (n * 10 + (c.toNat - 48)) % 18446744073709551616 = n * 10 + (c.toNat - 48) :=
      Nat.mod_eq_of_lt (by omega)
    rw [ParseUintLoop]
    simp only [hdv]
    have e64 : (2 : Nat) ^ 64 = 18446744073709551616 := by norm_num
    rw [if_neg (by omega), if_neg (by omega)]
    simp only [e64, hmod₁, hmod₂]
    rw [if_neg (by omega)]
    have := ih (n * 10 + (c.toNat - 48)) (fun x hx => hd x (by simp [hx]))
      (by rw [Nat.mul_comm]; exact hv)
    rw [this, Nat.mul_comm]

/-- The digit loop ends without error only on decimal digits. -/
theorem ParseUintLoop_ok_digits (maxVal cutoff : Nat) (cs : List Char) (n v : Nat)
    (h : ParseUintLoop 10 maxVal cutoff cs n = (v, none)) :
    ∀ c ∈ cs, isDecimalDigit c = true := by
  induction cs generalizing n with
  | nil => simp
  | cons c cs ih =>
    rw [ParseUintLoop] at h
    cases hdv : digitVal c with
    | none => simp [hdv] at h
    | some d =>
      simp only [hdv] at h
      by_cases hb : d ≥ 10
      · simp [hb] at h
      · rw [if_neg hb] at h
        by_cases hc : n ≥ cutoff
        · simp [hc] at h
        · rw [if_neg hc] at h
          split at h
          · simp at h
          · intro x hx
            rcases List.mem_cons.1 hx with rfl | hx
            · exact digit_of_digitVal _ d hdv (by omega)
            · exact ih _ h x hx

theorem ParseUint_consts :
    (2 : Nat) ^ 32 - 1 = 4294967295 ∧ ((2 : Nat) ^ 64 - 1) / 10 + 1 = 1844674407370955162 := by
  constructor <;> norm_num

theorem ParseUintLoop_ok_value (cs : List Char) (n v : Nat)
    (h : ParseUintLoop 10 4294967295 1844674407370955162 cs n = (v, none))
    (hn : n ≤ 4294967295) :
    v = decimalFrom n cs ∧ v ≤ 4294967295 := by
  induction cs generalizing n with
  | nil =>
    simp only [ParseUintLoop, Prod.mk.injEq, and_true] at h
    subst h
    exact ⟨rfl, hn⟩
  | cons c cs ih =>
    rw [ParseUintLoop] at h
    cases hdv : digitVal c with
    | none => simp [hdv] at h
    | some d =>
      simp only [hdv] at h
      by_cases hb : d ≥ 10
      · simp [hb] at h
      · rw [if_neg hb, if_neg (by omega)] at h
        have e64 : (2 : Nat) ^ 64 = 18446744073709551616 := by norm_num
        have hmod₁ : n * 10 % 18446744073709551616 = n * 10 := Nat.mod_eq_of_lt (by omega)
        have hmod₂ : (n * 10 + d) % 18446744073709551616 = n * 10 + d :=
          Nat.mod_eq_of_lt (by omega)
        simp only [e64, hmod₁, hmod₂] at h
        split at h
        · simp at h
        · rename_i hcond
          have hdig := digit_of_digitVal c d hdv (by omega)
          have hd' := (digitVal_of_digit c hdig).1
          rw [hdv] at hd'
          simp only [Option.some.injEq] at hd'
          obtain ⟨hv, hle⟩ := ih _ h (by omega)
          refine ⟨?_, hle⟩
          rw [hv]
          simp only [decimalFrom, List.foldl_cons]
          rw [hd', Nat.mul_comm]

theorem ParseInt_cons (s : String) (c : Char) (cs : List Char) (hs : s.data = c :: cs)
    (un : Nat) (e : Option NumErr)
    (hu : ParseUint (if c = '+' ∨ c = '-' then cs else c :: cs) 10 32 = (un, e)) :
    ParseInt s 10 32 =
      if e = some NumErr.ErrSyntax then (0, some ⟨"ParseInt", s, NumErr.ErrSyntax⟩)
      else if c ≠ '-' ∧ un ≥ 2147483648 then
        (2147483647, some ⟨"ParseInt", s, NumErr.ErrRange⟩)
      else if c = '-' ∧ un > 2147483648 then
        (-2147483648, some ⟨"ParseInt", s, NumErr.ErrRange⟩)
      else (if c = '-' then -(un : Int) else (un : Int), none) := by
  unfold ParseInt
  rw [hs]
  simp only [hu]
  have e31 : (2 : Nat) ^ (32 - 1) = 2147483648 := by norm_num
  cases e with
  | none =>
    simp only [e31]
    by_cases hc : c = '-' <;> simp [hc]
  | some k =>
    cases k with
    | ErrSyntax => simp
    | ErrRange =>
      simp only [e31]
      by_cases hc : c = '-' <;> simp [hc]

theorem ParseUintLoop_range_value (maxVal cutoff : Nat) (cs : List Char) (n un : Nat)
    (h : ParseUintLoop 10 maxVal cutoff cs n = (un, some NumErr.ErrRange)) : un = maxVal := by
  induction cs generalizing n with
  | nil => simp [ParseUintLoop] at h
  | cons c cs ih =>
    rw [ParseUintLoop] at h
    cases hdv : digitVal c with
    | none => simp [hdv] at h
    | some d =>
      simp only [hdv] at h
      split at h
      · simp at h
      · split at h
        · simp only [Prod.mk.injEq, and_true] at h
          exact h.symm
        · split at h
          · simp only [Prod.mk.injEq, and_true] at h
            exact h.symm
          · exact ih _ h

theorem literalValue_cons (s : String) (c : Char) (cs ds : List Char) (hs : s.data = c :: cs)
    (hds : (if c = '+' ∨ c = '-' then cs else c :: cs) = ds) :
    literalValue s =
      if ds ≠ [] ∧ ds.all isDecimalDigit = true then
        some (if c = '-' then -(decimalFrom 0 ds : Int) else (decimalFrom 0 ds : Int))
      else none := by
  unfold literalValue
  rw [hs]
  simp only [hds]

/-- `ParseInt(s, 10, 32)` returns a nil error exactly on the base-10 signed integer
literals whose value fits 32 bits, and then returns that value. -/
theorem ParseInt_ok_iff (s : String) (v : Int) :
    ParseInt s 10 32 = (v, none) ↔
      literalValue s = some v ∧ -2147483648 ≤ v ∧ v ≤ 2147483647 := by
  obtain ⟨c32, c64⟩ := ParseUint_consts
  cases hs : s.data with
  | nil => simp [ParseInt, literalValue, hs]
  | cons c cs =>
    generalize hds : (if c = '+' ∨ c = '-' then cs else c :: cs) = ds
    have hL := literalValue_cons s c cs ds hs hds
    cases hu : ParseUint ds 10 32 with
    | mk un e =>
      have hP := ParseInt_cons s c cs hs un e (by rw [hds]; exact hu)
      unfold ParseUint at hu
      rw [c32, c64] at hu
      by_cases hne : ds = []
      · simp only [hne, if_true, Prod.mk.injEq] at hu
        obtain ⟨-, rfl⟩ := hu
        rw [hP, hL]
        simp [hne]
      · rw [if_neg hne] at hu
        by_cases hall : ds.all isDecimalDigit = true
        · have hd : ∀ x ∈ ds, isDecimalDigit x = true := by
            simpa using hall
          rw [if_pos ⟨hne, hall⟩] at hL
          by_cases hfit : decimalFrom 0 ds ≤ 4294967295
          · rw [ParseUintLoop_digits ds 0 hd hfit] at hu
            simp only [Prod.mk.injEq] at hu
            obtain ⟨rfl, rfl⟩ := hu
            rw [hP, hL]
            simp only [Option.some.injEq, reduceCtorEq, if_false]
            by_cases hc : c = '-'
            · simp only [hc, ne_eq, not_true_eq_false, false_and, if_false, true_and, if_true]
              split
              · simp only [Prod.mk.injEq, reduceCtorEq, and_false, false_iff]
                omega
              · simp only [Prod.mk.injEq, and_true]
                constructor
                · intro h; subst h; omega
                · intro h; exact h.1
            · simp only [hc, ne_eq, not_false_eq_true, true_and, false_and, if_false]
              split
              · simp only [Prod.mk.injEq, reduceCtorEq, and_false, false_iff]
                omega
              · simp only [Prod.mk.injEq, and_true]
                constructor
                · intro h; subst h; omega
                · intro h; exact h.1
          · -- the value does not fit: the loop cannot end without error
            have hnone : e ≠ none := by
              rintro rfl
              have := (ParseUintLoop_ok_value ds 0 un hu (by omega))
              omega
            have hrhs : ¬ (literalValue s = some v ∧ -2147483648 ≤ v ∧ v ≤ 2147483647) := by
              rw [hL]
              rintro ⟨h, h'⟩
              simp only [Option.some.injEq] at h
              subst h
              split at h' <;> omega
            cases e with
            | none => exact absurd rfl hnone
            | some k =>
              cases k with
              | ErrSyntax =>
                rw [hP]
                simp only [if_true, Prod.mk.injEq, reduceCtorEq, and_false, false_iff]
                exact hrhs
              | ErrRange =>
                have hun := ParseUintLoop_range_value _ _ _ _ _ hu
                subst hun
                rw [hP]
                simp only [Option.some.injEq, reduceCtorEq, if_false]
                by_cases hc : c = '-'
                · simp only [hc, ne_eq, not_true_eq_false, false_and, if_false, true_and]
                  rw [if_pos (by omega)]
                  simp only [Prod.mk.injEq, reduceCtorEq, and_false, false_iff]
                  exact hrhs
                · simp only [hc, ne_eq, not_false_eq_true, true_and]
                  rw [if_pos (by omega)]
                  simp only [Prod.mk.injEq, reduceCtorEq, and_false, false_iff]
                  exact hrhs
        · rw [if_neg (fun h => hall h.2)] at hL
          rw [hL]
          simp only [reduceCtorEq, false_and, iff_false]
          have hnone : e ≠ none := by
            rintro rfl
            have := ParseUintLoop_ok_digits _ _ ds 0 un hu
            exact hall (by simpa using this)
          rw [hP]
          cases e with
          | none => exact absurd rfl hnone
          | some k =>
            cases k with
            | ErrSyntax => simp
            | ErrRange =>
              have hun := ParseUintLoop_range_value _ _ _ _ _ hu
              subst hun
              simp only [Option.some.injEq, reduceCtorEq, if_false]
              by_cases hc : c = '-'
              · simp [hc]
              · simp [hc]


theorem extractMinimum_ok (key value : String) (root child : JObj) (v : Int)
    (h : walk key value root = some child) (hp : ParseInt value 10 32 = (v, none)) :
    extractMinimum ⟨"@schemaMinimum", key, value, root⟩ =
      some (writeBack (strings.Split key '.') (assign child "minimum" (JVal.int v)) root,
        none) := by
  simp [extractMinimum, h, hp]

theorem extractMaximum_ok (key value : String) (root child : JObj) (v : Int)
    (h : walk key value root = some child) (hp : ParseInt value 10 32 = (v, none)) :
    extractMaximum ⟨"@schemaMaximum", key, value, root⟩ =
      some (writeBack (strings.Split key '.') (assign child "maximum" (JVal.int v)) root,
        none) := by
  simp [extractMaximum, h, hp]

theorem extractMinimum_err (key value : String) (root child : JObj) (v : Int) (e : NumError)
    (h : walk key value root = some child) (hp : ParseInt value 10 32 = (v, some e)) :
    extractMinimum ⟨"@schemaMinimum", key, value, root⟩ = some (root, some ⟨key, e⟩) := by
  simp [extractMinimum, h, hp]

theorem extractMaximum_err (key value : String) (root child : JObj) (v : Int) (e : NumError)
    (h : walk key value root = some child) (hp : ParseInt value 10 32 = (v, some e)) :
    extractMaximum ⟨"@schemaMaximum", key, value, root⟩ = some (root, some ⟨key, e⟩) := by
  simp [extractMaximum, h, hp]

/-! ## Lemmas: the shape of the tree under patching -/

theorem extractEnums_shape (s : extractSource) (t : JObj) (e : Option KeyError)
    (h : extractEnums s = some (t, e)) : SameShape t s.jsonValues := by
  unfold extractEnums at h
  split at h
  · cases hw : walk s.key s.value s.jsonValues with
    | none => simp [hw] at h
    | some child =>
      simp only [hw, Option.some.injEq, Prod.mk.injEq] at h
      rw [← h.1]
      exact SameShape_writeBack _ _ _ _ hw (SameShape_assign _ _ _ (by decide))
  · simp only [Option.some.injEq, Prod.mk.injEq] at h
    rw [← h.1]
    exact SameShape.refl _

theorem extractRegex_shape (s : extractSource) (t : JObj) (e : Option KeyError)
    (h : extractRegex s = some (t, e)) : SameShape t s.jsonValues := by
  unfold extractRegex at h
  split at h
  · cases hw : walk s.key s.value s.jsonValues with
    | none => simp [hw] at h
    | some child =>
      simp only [hw, Option.some.injEq, Prod.mk.injEq] at h
      rw [← h.1]
      exact SameShape_writeBack _ _ _ _ hw (SameShape_assign _ _ _ (by decide))
  · simp only [Option.some.injEq, Prod.mk.injEq] at h
    rw [← h.1]
    exact SameShape.refl _

theorem extractMinimum_shape (s : extractSource) (t : JObj) (e : Option KeyError)
    (h : extractMinimum s = some (t, e)) : SameShape t s.jsonValues := by
  unfold extractMinimum at h
  split at h
  · cases hw : walk s.key s.value s.jsonValues with
    | none => simp [hw] at h
    | some child =>
      simp only [hw] at h
      split at h
      · simp only [Option.some.injEq, Prod.mk.injEq] at h
        rw [← h.1]
        exact SameShape.refl _
      · simp only [Option.some.injEq, Prod.mk.injEq] at h
        rw [← h.1]
        exact SameShape_writeBack _ _ _ _ hw (SameShape_assign _ _ _ (by decide))
  · simp only [Option.some.injEq, Prod.mk.injEq] at h
    rw [← h.1]
    exact SameShape.refl _

theorem extractMaximum_shape (s : extractSource) (t : JObj) (e : Option KeyError)
    (h : extractMaximum s = some (t, e)) : SameShape t s.jsonValues := by
  unfold extractMaximum at h
  split at h
  · cases hw : walk s.key s.value s.jsonValues with
    | none => simp [hw] at h
    | some child =>
      simp only [hw] at h
      split at h
      · simp only [Option.some.injEq, Prod.mk.injEq] at h
        rw [← h.1]
        exact SameShape.refl _
      · simp only [Option.some.injEq, Prod.mk.injEq] at h
        rw [← h.1]
        exact SameShape_writeBack _ _ _ _ hw (SameShape_assign _ _ _ (by decide))
  · simp only [Option.some.injEq, Prod.mk.injEq] at h
    rw [← h.1]
    exact SameShape.refl _

theorem runHandlers_shape (vars : extractSource) (t : JObj) (e : Option (List KeyError))
    (h : runHandlers vars = some (t, e)) : SameShape t vars.jsonValues := by
  unfold runHandlers at h
  cases h1 : extractEnums vars with
  | none => simp [h1] at h
  | some r1 =>
    obtain ⟨t1, e1⟩ := r1
    simp only [h1] at h
    cases h2 : extractRegex { vars with jsonValues := t1 } with
    | none => simp [h2] at h
    | some r2 =>
      obtain ⟨t2, e2⟩ := r2
      simp only [h2] at h
      cases h3 : extractMinimum { vars with jsonValues := t2 } with
      | none => simp [h3] at h
      | some r3 =>
        obtain ⟨t3, e3⟩ := r3
        simp only [h3] at h
        cases h4 : extractMaximum { vars with jsonValues := t3 } with
        | none => simp [h4] at h
        | some r4 =>
          obtain ⟨t4, e4⟩ := r4
          simp only [h4, Option.some.injEq, Prod.mk.injEq] at h
          rw [← h.1]
          exact (extractMaximum_shape _ _ _ h4).trans
            ((extractMinimum_shape _ _ _ h3).trans
              ((extractRegex_shape _ _ _ h2).trans (extractEnums_shape _ _ _ h1)))

theorem processLine_shape (s : String) (jsonValues t : JObj) (e : Option (List KeyError))
    (h : processLine s jsonValues = some (t, e)) : SameShape t jsonValues := by
  unfold processLine at h
  simp only at h
  split at h
  · exact runHandlers_shape _ _ _ h
  · simp only [Option.some.injEq, Prod.mk.injEq] at h
    rw [← h.1]
    exact SameShape.refl _

/-- A handler whose token is the option panics when the key does not resolve. -/
theorem runHandlers_unresolved (opt key value : String) (root : JObj)
    (hopt : opt = "@schemaEnum" ∨ opt = "@schemaRegex" ∨ opt = "@schemaMinimum" ∨
      opt = "@schemaMaximum")
    (hkey : walk key value root = none) :
    runHandlers ⟨opt, key, value, root⟩ = none := by
  rcases hopt with rfl | rfl | rfl | rfl
  · rw [runHandlers_enum]
    simp [extractEnums, hkey]
  · rw [runHandlers_regex]
    simp [extractRegex, hkey]
  · rw [runHandlers_minimum]
    simp [extractMinimum, hkey]
  · rw [runHandlers_maximum]
    simp [extractMaximum, hkey]

/-- A line the loop reads that is a recognised directive on an unresolvable key stops
the loop: it does not finish. -/
theorem patchLoop_unresolved (lines : List String) (line : String) (root : JObj)
    (hline : line ∈ lines) (hpre : strings.HasPrefix line "##" = true)
    (hlen : 3 < (strings.Split line ' ').length)
    (hopt : (strings.Split line ' ').getD 1 "" = "@schemaEnum" ∨
      (strings.Split line ' ').getD 1 "" = "@schemaRegex" ∨
      (strings.Split line ' ').getD 1 "" = "@schemaMinimum" ∨
      (strings.Split line ' ').getD 1 "" = "@schemaMaximum")
    (hkey : walk ((strings.Split line ' ').getD 2 "") ((strings.Split line ' ').getD 3 "")
      root = none) :
    ∀ cur : JObj, SameShape cur root →
      patchLoop lines cur = Patched.panicked ∨ ∃ err, patchLoop lines cur = Patched.failed err := by
  induction lines with
  | nil => cases hline
  | cons s rest ih =>
    intro cur hcur
    rw [patchLoop]
    by_cases hs : s = line
    · subst hs
      have hp : processLine s cur = none := by
        unfold processLine
        simp only [hpre, Bool.true_and, decide_eq_true_eq, gt_iff_lt, hlen, if_true]
        exact runHandlers_unresolved _ _ _ _ hopt (hcur.walk_none _ _ hkey)
      simp [hp]
    · have hmem : line ∈ rest := by
        rcases List.mem_cons.1 hline with h | h
        · exact absurd h.symm hs
        · exact h
      cases hp : processLine s cur with
      | none => simp
      | some r =>
        obtain ⟨t, e⟩ := r
        cases e with
        | some err => simp
        | none =>
          simp only []
          exact ih hmem t ((processLine_shape _ _ _ _ hp).trans hcur)

/-! ## Lemmas: directive lines -/

theorem processLine_of_fields (s p0 opt key value : String) (more : List String)
    (root : JObj) (hpre : strings.HasPrefix s "##" = true)
    (hsplit : strings.Split s ' ' = p0 :: opt :: key :: value :: more) :
    processLine s root = runHandlers ⟨opt, key, value, root⟩ := by
  unfold processLine
  simp [hpre, hsplit]

theorem Split_fields (a b c d : List Char) (ha : ' ' ∉ a) (hb : ' ' ∉ b) (hc : ' ' ∉ c)
    (hd : ' ' ∉ d) :
    splitChars ' ' (a ++ ' ' :: (b ++ ' ' :: (c ++ ' ' :: d))) = [a, b, c, d] := by
  rw [splitChars_append_sep _ _ _ ha, splitChars_append_sep _ _ _ hb,
    splitChars_append_sep _ _ _ hc, splitChars_not_mem _ _ hd]

theorem directiveLine_data (opt key value : String) :
    (directiveLine opt key value).data =
      ['#', '#'] ++ ' ' :: (opt.data ++ ' ' :: (key.data ++ ' ' :: value.data)) := by
  simp [directiveLine, String.data_append]

theorem Split_directiveLine (opt key value : String) (ho : ' ' ∉ opt.data)
    (hk : ' ' ∉ key.data) (hv : ' ' ∉ value.data) :
    strings.Split (directiveLine opt key value) ' ' = ["##", opt, key, value] := by
  unfold strings.Split
  rw [directiveLine_data, Split_fields _ _ _ _ (by decide) ho hk hv]
  rfl

theorem HasPrefix_directiveLine (opt key value : String) :
    strings.HasPrefix (directiveLine opt key value) "##" = true := by
  unfold strings.HasPrefix
  rw [directiveLine_data]
  rfl

theorem processLine_directiveLine (opt key value : String) (root : JObj)
    (ho : ' ' ∉ opt.data) (hk : ' ' ∉ key.data) (hv : ' ' ∉ value.data) :
    processLine (directiveLine opt key value) root = runHandlers ⟨opt, key, value, root⟩ :=
  processLine_of_fields _ "##" opt key value [] root (HasPrefix_directiveLine _ _ _)
    (Split_directiveLine _ _ _ ho hk hv)

theorem directiveLine_no_newline (opt key value : String) (ho : '\n' ∉ opt.data)
    (hk : '\n' ∉ key.data) (hv : '\n' ∉ value.data) :
    '\n' ∉ (directiveLine opt key value).data := by
  rw [directiveLine_data]
  simp only [List.mem_append, List.mem_cons, not_or]
  refine ⟨by decide, by decide, ho, by decide, hk, by decide, hv⟩

theorem Split_three_lines (l₁ l₂ l₃ : String) (h₁ : '\n' ∉ l₁.data) (h₂ : '\n' ∉ l₂.data)
    (h₃ : '\n' ∉ l₃.data) :
    strings.Split (l₁ ++ "\n" ++ l₂ ++ "\n" ++ l₃) '\n' = [l₁, l₂, l₃] := by
  unfold strings.Split
  have e : (l₁ ++ "\n" ++ l₂ ++ "\n" ++ l₃).data =
      l₁.data ++ '\n' :: (l₂.data ++ '\n' :: l₃.data) := by
    simp [String.data_append]
  rw [e, splitChars_append_sep _ _ _ h₁, splitChars_append_sep _ _ _ h₂,
    splitChars_not_mem _ _ h₃]
  rfl

/-- A literal consists of sign and digit characters only. -/
theorem literalValue_chars (s : String) (v : Int) (h : literalValue s = some v) :
    ' ' ∉ s.data ∧ '\n' ∉ s.data := by
  cases hs : s.data with
  | nil => simp [literalValue, hs] at h
  | cons c cs =>
    rw [literalValue_cons s c cs _ hs rfl] at h
    by_cases hcond : (if c = '+' ∨ c = '-' then cs else c :: cs) ≠ [] ∧
        (if c = '+' ∨ c = '-' then cs else c :: cs).all isDecimalDigit = true
    · have hall : ∀ x ∈ (if c = '+' ∨ c = '-' then cs else c :: cs),
          isDecimalDigit x = true := by
        simpa using hcond.2
      have hdig : ∀ x : Char, isDecimalDigit x = true → x ≠ ' ' ∧ x ≠ '\n' := by
        intro x hx
        constructor <;> rintro rfl <;> revert hx <;> decide
      by_cases hc : c = '+' ∨ c = '-'
      · rw [if_pos hc] at hall
        have hc' : c ≠ ' ' ∧ c ≠ '\n' := by
          rcases hc with rfl | rfl <;> decide
        constructor
        · intro hm
          rcases List.mem_cons.1 hm with e | e
          · exact hc'.1 e.symm
          · exact (hdig _ (hall _ e)).1 rfl
        · intro hm
          rcases List.mem_cons.1 hm with e | e
          · exact hc'.2 e.symm
          · exact (hdig _ (hall _ e)).2 rfl
      · rw [if_neg hc] at hall
        exact ⟨fun hm => (hdig _ (hall _ hm)).1 rfl, fun hm => (hdig _ (hall _ hm)).2 rfl⟩
    · rw [if_neg hcond] at h
      cases h

theorem runHandlers_minimum_ok (key value : String) (root node : JObj) (v : Int)
    (h : walk key value root = some node) (hp : ParseInt value 10 32 = (v, none)) :
    runHandlers ⟨"@schemaMinimum", key, value, root⟩ =
      some (writeBack (strings.Split key '.') (assign node "minimum" (JVal.int v)) root,
        none) := by
  rw [runHandlers_minimum, extractMinimum_ok key value root node v h hp]
  rfl

theorem runHandlers_maximum_ok (key value : String) (root node : JObj) (v : Int)
    (h : walk key value root = some node) (hp : ParseInt value 10 32 = (v, none)) :
    runHandlers ⟨"@schemaMaximum", key, value, root⟩ =
      some (writeBack (strings.Split key '.') (assign node "maximum" (JVal.int v)) root,
        none) := by
  rw [runHandlers_maximum, extractMaximum_ok key value root node v h hp]
  rfl

theorem runHandlers_minimum_err (key value : String) (root node : JObj) (v : Int)
    (e : NumError) (h : walk key value root = some node)
    (hp : ParseInt value 10 32 = (v, some e)) :
    runHandlers ⟨"@schemaMinimum", key, value, root⟩ = some (root, some [⟨key, e⟩]) := by
  rw [runHandlers_minimum, extractMinimum_err key value root node v e h hp]
  rfl

theorem runHandlers_maximum_err (key value : String) (root node : JObj) (v : Int)
    (e : NumError) (h : walk key value root = some node)
    (hp : ParseInt value 10 32 = (v, some e)) :
    runHandlers ⟨"@schemaMaximum", key, value, root⟩ = some (root, some [⟨key, e⟩]) := by
  rw [runHandlers_maximum, extractMaximum_err key value root node v e h hp]
  rfl

/-- How the loop ends on a line that is no directive, then a minimum line and a maximum
line for one resolvable key, by what `ParseInt` makes of the two payloads. -/
theorem patch_min_max_eq (first key a b : String) (root node : JObj)
    (hfirst : strings.HasPrefix first "##" = false) (hnl : '\n' ∉ first.data)
    (hk : walk key "" root = some node) (hsp : ' ' ∉ key.data) (hknl : '\n' ∉ key.data)
    (ha₁ : ' ' ∉ a.data) (ha₂ : '\n' ∉ a.data) (hb₁ : ' ' ∉ b.data) (hb₂ : '\n' ∉ b.data) :
    patch (first ++ "\n" ++ directiveLine "@schemaMinimum" key a ++ "\n" ++
        directiveLine "@schemaMaximum" key b) root =
      match ParseInt a 10 32 with
      | (_, some e) => Patched.failed [⟨key, e⟩]
      | (va, none) =>
        match ParseInt b 10 32 with
        | (_, some e) => Patched.failed [⟨key, e⟩]
        | (vb, none) =>
          Patched.finished (writeBack (strings.Split key '.')
            (assign (assign node "minimum" (JVal.int va)) "maximum" (JVal.int vb))
            (writeBack (strings.Split key '.') (assign node "minimum" (JVal.int va)) root)) := by
  have hlines := Split_three_lines first (directiveLine "@schemaMinimum" key a)
    (directiveLine "@schemaMaximum" key b) hnl
    (directiveLine_no_newline _ _ _ (by decide) hknl ha₂)
    (directiveLine_no_newline _ _ _ (by decide) hknl hb₂)
  have h₁ : processLine first root = some (root, none) := by
    unfold processLine
    simp [hfirst]
  have h₂ := processLine_directiveLine "@schemaMinimum" key a root (by decide) hsp ha₁
  unfold patch
  rw [hlines]
  cases hpa : ParseInt a 10 32 with
  | mk va ea =>
    cases ea with
    | some e =>
      rw [runHandlers_minimum_err key a root node va e hk hpa] at h₂
      simp only [patchLoop, h₁, h₂]
    | none =>
      rw [runHandlers_minimum_ok key a root node va hk hpa] at h₂
      have hk₂ : walk key b (writeBack (strings.Split key '.')
          (assign node "minimum" (JVal.int va)) root) =
          some (assign node "minimum" (JVal.int va)) := walkLoop_writeBack _ _ _ _ hk
      have h₃ := processLine_directiveLine "@schemaMaximum" key b
        (writeBack (strings.Split key '.') (assign node "minimum" (JVal.int va)) root)
        (by decide) hsp hb₁
      cases hpb : ParseInt b 10 32 with
      | mk vb eb =>
        cases eb with
        | some e =>
          rw [runHandlers_maximum_err key b _ _ vb e hk₂ hpb] at h₃
          simp only [patchLoop, h₁, h₂, h₃]
        | none =>
          rw [runHandlers_maximum_ok key b _ _ vb hk₂ hpb] at h₃
          simp only [patchLoop, h₁, h₂, h₃]

/-- A minimum line and then a maximum line for one resolvable key, after a line that
is no directive: the loop finishes and the node has the two entries set. -/
theorem patch_min_then_max (first key a b : String) (root node : JObj) (va vb : Int)
    (hfirst : strings.HasPrefix first "##" = false) (hnl : '\n' ∉ first.data)
    (hk : walk key "" root = some node) (hsp : ' ' ∉ key.data) (hknl : '\n' ∉ key.data)
    (ha : literalValue a = some va) (hra : -2147483648 ≤ va ∧ va ≤ 2147483647)
    (hb : literalValue b = some vb) (hrb : -2147483648 ≤ vb ∧ vb ≤ 2147483647) :
    ∃ root' : JObj,
      patch (first ++ "\n" ++ directiveLine "@schemaMinimum" key a ++ "\n" ++
        directiveLine "@schemaMaximum" key b) root = Patched.finished root' ∧
      walk key "" root' =
        some (assign (assign node "minimum" (JVal.int va)) "maximum" (JVal.int vb)) := by
  obtain ⟨ha₁, ha₂⟩ := literalValue_chars a va ha
  obtain ⟨hb₁, hb₂⟩ := literalValue_chars b vb hb
  have hpa : ParseInt a 10 32 = (va, none) := (ParseInt_ok_iff a va).2 ⟨ha, hra⟩
  have hpb : ParseInt b 10 32 = (vb, none) := (ParseInt_ok_iff b vb).2 ⟨hb, hrb⟩
  have h := patch_min_max_eq first key a b root node hfirst hnl hk hsp hknl ha₁ ha₂ hb₁ hb₂
  rw [hpa] at h
  simp only [hpb] at h
  exact ⟨_, h, walkLoop_writeBack _ _ _ _ (walkLoop_writeBack _ _ _ _ hk)⟩

/-- When the loop finishes on such a text, both payloads are literals and the node has
the two entries set to their values. -/
theorem patch_min_max_finished (first key a b : String) (root node root' : JObj)
    (hfirst : strings.HasPrefix first "##" = false) (hnl : '\n' ∉ first.data)
    (hk : walk key "" root = some node) (hsp : ' ' ∉ key.data) (hknl : '\n' ∉ key.data)
    (ha₁ : ' ' ∉ a.data) (ha₂ : '\n' ∉ a.data) (hb₁ : ' ' ∉ b.data) (hb₂ : '\n' ∉ b.data)
    (hfin : patch (first ++ "\n" ++ directiveLine "@schemaMinimum" key a ++ "\n" ++
        directiveLine "@schemaMaximum" key b) root = Patched.finished root') :
    ∃ va vb : Int, literalValue a = some va ∧ literalValue b = some vb ∧
      walk key "" root' =
        some (assign (assign node "minimum" (JVal.int va)) "maximum" (JVal.int vb)) := by
  rw [patch_min_max_eq first key a b root node hfirst hnl hk hsp hknl ha₁ ha₂ hb₁ hb₂] at hfin
  cases hpa : ParseInt a 10 32 with
  | mk va ea =>
    cases ea with
    | some e =>
      rw [hpa] at hfin
      cases hfin
    | none =>
      rw [hpa] at hfin
      cases hpb : ParseInt b 10 32 with
      | mk vb eb =>
        cases eb with
        | some e =>
          simp only [hpb] at hfin
          cases hfin
        | none =>
          simp only [hpb, Patched.finished.injEq] at hfin
          refine ⟨va, vb, ((ParseInt_ok_iff a va).1 hpa).1, ((ParseInt_ok_iff b vb).1 hpb).1, ?_⟩
          rw [← hfin]
          exact walkLoop_writeBack _ _ _ _ (walkLoop_writeBack _ _ _ _ hk)

/-! ## Lemmas: walking an inferred schema -/

theorem index_inferProps (m : List (String × YVal)) (k : String) :
    index (inferProps m) k =
      match yamlField m k with
      | some v => JVal.obj (inferNode v)
      | none => JVal.null := by
  induction m with
  | nil => simp [inferProps, index, yamlField]
  | cons e rest ih =>
    obtain ⟨k', v'⟩ := e
    by_cases hk : k' = k
    · simp [inferProps, index, yamlField, hk]
    · simp [inferProps, index, yamlField, hk, ih]

theorem index_inferNode_map (m : List (String × YVal)) :
    index (inferNode (YVal.map m)) "properties" = JVal.obj (inferProps m) := by
  simp [inferNode, index]

theorem walkLoop_infer (ks : List String) (y v : YVal) (h : yamlAt ks y = some v) :
    walkLoop ks (inferNode y) = some (inferNode v) := by
  induction ks generalizing y with
  | nil =>
    simp only [yamlAt, Option.some.injEq] at h
    subst h
    rfl
  | cons k ks ih =>
    cases y with
    | map m =>
      simp only [yamlAt] at h
      cases hf : yamlField m k with
      | none => simp [hf] at h
      | some y' =>
        simp only [hf] at h
        rw [walkLoop_cons, index_inferNode_map, asMap_obj, Option.some_bind,
          index_inferProps, hf]
        simp only [asMap_obj, Option.some_bind]
        exact ih y' h
    | null => simp [yamlAt] at h
    | bool _ => simp [yamlAt] at h
    | int _ => simp [yamlAt] at h
    | float _ => simp [yamlAt] at h
    | str _ => simp [yamlAt] at h
    | seq _ => simp [yamlAt] at h

theorem Split_dottedPath (ks : List String) (hne : ks ≠ [])
    (hdot : ∀ k ∈ ks, '.' ∉ k.data) : strings.Split (dottedPath ks) '.' = ks := by
  induction ks with
  | nil => exact absurd rfl hne
  | cons k rest ih =>
    cases rest with
    | nil =>
      simp only [dottedPath]
      exact Split_no_sep k '.' (hdot k (by simp))
    | cons k' ks =>
      have ih' := ih (by simp) (fun x hx => hdot x (by simp [hx]))
      have e : (dottedPath (k :: k' :: ks)).data =
          k.data ++ '.' :: (dottedPath (k' :: ks)).data := by
        simp [dottedPath, String.data_append]
      unfold strings.Split at ih' ⊢
      rw [e, splitChars_append_sep _ _ _ (hdot k (by simp)), List.map_cons, ih']

/-! ## Lemmas: the fields of a line -/

theorem Split_field_no_sep (s : String) (sep : Char) (f : String)
    (hf : f ∈ strings.Split s sep) : sep ∉ f.data := by
  simp only [strings.Split, List.mem_map] at hf
  obtain ⟨cs, hcs, rfl⟩ := hf
  exact splitChars_sep_not_mem sep s.data cs hcs

theorem hashes_prefix_field (a x y : List Char) (ha : ' ' ∉ a)
    (h : List.isPrefixOf ['#', '#'] (a ++ ' ' :: x) = true) :
    List.isPrefixOf ['#', '#'] (a ++ ' ' :: y) = true := by
  cases a with
  | nil => simp [List.isPrefixOf] at h
  | cons c₁ a =>
    cases a with
    | nil => simp [List.isPrefixOf] at h
    | cons c₂ a => simpa [List.isPrefixOf] using h

/-- A line with at least four fields: the line cut after the fourth field starts with
`##` when the line does, and splits into exactly the first four fields. -/
theorem firstFour_fields (s p0 opt key value : String) (more : List String)
    (hsplit : strings.Split s ' ' = p0 :: opt :: key :: value :: more)
    (hpre : strings.HasPrefix s "##" = true) :
    strings.Split (firstFour s) ' ' = [p0, opt, key, value] ∧
      strings.HasPrefix (firstFour s) "##" = true := by
  have hno : ∀ f ∈ strings.Split s ' ', ' ' ∉ f.data := fun f hf =>
    Split_field_no_sep s ' ' f hf
  rw [hsplit] at hno
  have h0 := hno p0 (by simp)
  have h1 := hno opt (by simp)
  have h2 := hno key (by simp)
  have h3 := hno value (by simp)
  have hdata : (firstFour s).data =
      p0.data ++ ' ' :: (opt.data ++ ' ' :: (key.data ++ ' ' :: value.data)) := by
    simp [firstFour, strings.Join, hsplit, List.intercalate]
  have hs : s.data = List.intercalate [' '] (splitChars ' ' s.data) :=
    (splitChars_intercalate ' ' s.data).symm
  have hsp : splitChars ' ' s.data =
      p0.data :: opt.data :: key.data :: value.data :: more.map String.data := by
    have := congrArg (List.map String.data) hsplit
    simpa [strings.Split, Function.comp_def] using this
  constructor
  · unfold strings.Split
    rw [hdata, Split_fields _ _ _ _ h0 h1 h2 h3]
    rfl
  · unfold strings.HasPrefix at hpre ⊢
    rw [hdata]
    rw [hs, hsp] at hpre
    have e : List.intercalate [' ']
        (p0.data :: opt.data :: key.data :: value.data :: more.map String.data) =
        p0.data ++ ' ' :: List.intercalate [' ']
          (opt.data :: key.data :: value.data :: more.map String.data) := by
      simp [List.intercalate]
    rw [e] at hpre
    exact hashes_prefix_field _ _ _ h0 hpre

theorem Split_length_ge_four (s : String) (h : 3 < (strings.Split s ' ').length) :
    ∃ p0 opt key value more, strings.Split s ' ' = p0 :: opt :: key :: value :: more := by
  match hs : strings.Split s ' ', h with
  | p0 :: opt :: key :: value :: more, _ => exact ⟨p0, opt, key, value, more, rfl⟩

/-! ## Lemmas: what a write leaves as it was -/

theorem assign_assign (m : JObj) (k : String) (a b : JVal) :
    assign (assign m k a) k b = assign m k b := by
  induction m with
  | nil => simp [assign]
  | cons e rest ih =>
    obtain ⟨k', v'⟩ := e
    by_cases h : k' = k
    · simp [assign, h]
    · simp [assign, h, ih]

theorem eraseNode_assign_patched (node : JObj) (k : String) (v : JVal)
    (hk : k ∈ patchedKeys) : eraseNode (assign node k v) = eraseNode node := by
  induction node with
  | nil => simp [assign, eraseNode, hk]
  | cons e rest ih =>
    obtain ⟨k', v'⟩ := e
    by_cases h : k' = k
    · subst h
      simp [assign, eraseNode, hk]
    · simp only [assign, h, if_false, eraseNode, ih]

theorem eraseNode_assign_properties (node props props' : JObj)
    (hp : asMap (index node "properties") = some props)
    (he : eraseChildren props' = eraseChildren props) :
    eraseNode (assign node "properties" (JVal.obj props')) = eraseNode node := by
  induction node with
  | nil => simp [index, asMap] at hp
  | cons e rest ih =>
    obtain ⟨k', v'⟩ := e
    by_cases h : k' = "properties"
    · subst h
      simp only [index, if_true] at hp
      rw [asMap_eq_some.1 hp]
      have hnot : "properties" ∉ patchedKeys := by decide
      simp [assign, eraseNode, hnot, erasePropsVal, he]
    · simp only [index, h, if_false] at hp
      simp only [assign, h, if_false, eraseNode, ih hp]

theorem eraseChildren_assign (props child child' : JObj) (seg : String)
    (hc : asMap (index props seg) = some child) (he : eraseNode child' = eraseNode child) :
    eraseChildren (assign props seg (JVal.obj child')) = eraseChildren props := by
  induction props with
  | nil => simp [index, asMap] at hc
  | cons e rest ih =>
    obtain ⟨k', v'⟩ := e
    by_cases h : k' = seg
    · subst h
      simp only [index, if_true] at hc
      rw [asMap_eq_some.1 hc]
      simp [assign, eraseChildren, eraseNodeVal, he]
    · simp only [index, h, if_false] at hc
      simp only [assign, h, if_false, eraseChildren, ih hc]

/-- A write that keeps the written node the same but for the four entries keeps the
whole tree the same but for the four entries. -/
theorem eraseNode_writeBack (segs : List String) (root child child' : JObj)
    (h : walkLoop segs root = some child) (he : eraseNode child' = eraseNode child) :
    eraseNode (writeBack segs child' root) = eraseNode root := by
  induction segs generalizing root with
  | nil =>
    simp [walkLoop] at h
    subst h
    simpa [writeBack] using he
  | cons seg rest ih =>
    obtain ⟨props, c, hp, hc, hr⟩ := walkLoop_cons_eq_some h
    rw [writeBack_cons child' hp hc]
    exact eraseNode_assign_properties root props _ hp
      (eraseChildren_assign props c _ seg hc (ih c hr))

theorem writeBack_writeBack (segs : List String) (root child c₁ c₂ : JObj)
    (h : walkLoop segs root = some child) :
    writeBack segs c₂ (writeBack segs c₁ root) = writeBack segs c₂ root := by
  induction segs generalizing root with
  | nil => simp [writeBack]
  | cons seg rest ih =>
    obtain ⟨props, c, hp, hc, hr⟩ := walkLoop_cons_eq_some h
    rw [writeBack_cons c₁ hp hc, writeBack_cons c₂ hp hc]
    have hp' : asMap (index (assign root "properties"
        (JVal.obj (assign props seg (JVal.obj (writeBack rest c₁ c))))) "properties") =
        some (assign props seg (JVal.obj (writeBack rest c₁ c))) := by
      rw [index_assign_same, asMap_obj]
    have hc' : asMap (index (assign props seg (JVal.obj (writeBack rest c₁ c))) seg) =
        some (writeBack rest c₁ c) := by
      rw [index_assign_same, asMap_obj]
    rw [writeBack_cons c₂ hp' hc', assign_assign, assign_assign, ih c hr]

/-- What a write leaves at the nodes of the tree: the path written leads to the written
node, and at every other path the node has its entries other than `"properties"` as
before, when the write changes nothing below the written node. -/
theorem writeBack_frame (segs : List String) (root child child' : JObj)
    (h : walkLoop segs root = some child)
    (hbelow : ∀ s q, walkLoop (s :: q) child' = walkLoop (s :: q) child)
    (p : List String) (n : JObj) (hn : walkLoop p root = some n) :
    ∃ n', walkLoop p (writeBack segs child' root) = some n' ∧
      (p = segs → n' = child') ∧
      (p ≠ segs → ∀ k, k ≠ "properties" → index n' k = index n k) := by
  induction segs generalizing root p n with
  | nil =>
    simp only [walkLoop, Option.some.injEq] at h
    subst h
    cases p with
    | nil =>
      simp only [walkLoop, Option.some.injEq] at hn
      exact ⟨child', rfl, fun _ => rfl, fun hne => absurd rfl hne⟩
    | cons s q =>
      refine ⟨n, ?_, (fun e => by cases e), fun _ _ _ => rfl⟩
      simp only [writeBack]
      rw [hbelow s q]
      exact hn
  | cons seg rest ih =>
    obtain ⟨props, c, hp, hc, hr⟩ := walkLoop_cons_eq_some h
    rw [writeBack_cons child' hp hc]
    cases p with
    | nil =>
      simp only [walkLoop, Option.some.injEq] at hn
      subst hn
      refine ⟨_, rfl, (fun e => by cases e), fun _ k hk => ?_⟩
      exact index_assign_other _ _ _ _ (Ne.symm hk)
    | cons s q =>
      rw [walkLoop_cons, index_assign_same, asMap_obj, Option.some_bind]
      rw [walkLoop_cons, hp, Option.some_bind] at hn
      by_cases e : seg = s
      · subst e
        rw [index_assign_same, asMap_obj, Option.some_bind]
        rw [hc, Option.some_bind] at hn
        obtain ⟨n', h₁, h₂, h₃⟩ := ih c hr q n hn
        refine ⟨n', h₁, fun e => h₂ (by simpa using e), fun hne => h₃ (fun e => hne (by rw [e]))⟩
      · rw [index_assign_other _ _ _ _ e]
        exact ⟨n, hn, fun e' => absurd (List.cons.inj e').1.symm e, fun _ _ _ => rfl⟩

/-! ## Lemmas: the one write of a line -/

theorem entryOf_some (opt k : String) (h : entryOf opt = some k) :
    opt ∈ optionTokens ∧ k ∈ patchedKeys ∧ k ≠ "properties" := by
  unfold entryOf at h
  split at h
  · cases h; subst opt; decide
  · split at h
    · cases h; subst opt; decide
    · split at h
      · cases h; subst opt; decide
      · split at h
        · cases h; subst opt; decide
        · cases h

theorem entryOf_none (opt : String) (h : opt ∉ optionTokens) : entryOf opt = none := by
  simp only [optionTokens, List.mem_cons, List.mem_singleton, List.not_mem_nil, or_false,
    not_or] at h
  simp [entryOf, h.1, h.2.1, h.2.2.1, h.2.2.2]

theorem entryOf_of_mem (opt : String) (h : opt ∈ optionTokens) : ∃ k, entryOf opt = some k := by
  simp only [optionTokens, List.mem_cons, List.mem_singleton, List.not_mem_nil, or_false] at h
  rcases h with rfl | rfl | rfl | rfl
  · exact ⟨"enum", by decide⟩
  · exact ⟨"pattern", by decide⟩
  · exact ⟨"minimum", by decide⟩
  · exact ⟨"maximum", by decide⟩

/-- The four handlers on a recognised token and a key that resolves: one write of the
token's entry into the resolved node, or the error of `ParseInt` and no write. -/
theorem runHandlers_recognised (opt key value k : String) (root node : JObj)
    (hk : entryOf opt = some k) (hw : walk key value root = some node) :
    runHandlers ⟨opt, key, value, root⟩ =
      match payloadOf opt value with
      | Except.ok x =>
        some (writeBack (strings.Split key '.') (assign node k x) root, none)
      | Except.error e => some (root, some [⟨key, e⟩]) := by
  unfold entryOf at hk
  split at hk
  · rename_i h; subst h; cases hk
    rw [runHandlers_enum, extractEnums_apply key value root node hw]
    simp [payloadOf]
  · split at hk
    · rename_i h; subst h; cases hk
      rw [runHandlers_regex, extractRegex_apply key value root node hw]
      simp [payloadOf]
    · split at hk
      · rename_i h; subst h; cases hk
        have e₁ : payloadOf "@schemaMinimum" value =
            match ParseInt value 10 32 with
            | (v, none) => Except.ok (JVal.int v)
            | (_, some e) => Except.error e := by
          simp [payloadOf]
        rw [e₁]
        cases hp : ParseInt value 10 32 with
        | mk v err =>
          cases err with
          | none => simp only [runHandlers_minimum_ok key value root node v hw hp]
          | some e => simp only [runHandlers_minimum_err key value root node v e hw hp]
      · split at hk
        · rename_i h; subst h; cases hk
          have e₁ : payloadOf "@schemaMaximum" value =
              match ParseInt value 10 32 with
              | (v, none) => Except.ok (JVal.int v)
              | (_, some e) => Except.error e := by
            simp [payloadOf]
          rw [e₁]
          cases hp : ParseInt value 10 32 with
          | mk v err =>
            cases err with
            | none => simp only [runHandlers_maximum_ok key value root node v hw hp]
            | some e => simp only [runHandlers_maximum_err key value root node v e hw hp]
        · cases hk

/-- What the four handlers leave when they do not panic: the tree as it was, with at
most one error, or one write of the token's entry into the node the key resolves to,
with no error. -/
theorem runHandlers_effect (opt key value : String) (root t : JObj)
    (errs : Option (List KeyError))
    (h : runHandlers ⟨opt, key, value, root⟩ = some (t, errs)) :
    (t = root ∧ (errs = none ∨ ∃ e, errs = some [e])) ∨
    (errs = none ∧ ∃ k node x, entryOf opt = some k ∧ walk key value root = some node ∧
      payloadOf opt value = Except.ok x ∧
      t = writeBack (strings.Split key '.') (assign node k x) root) := by
  by_cases hopt : opt ∈ optionTokens
  · obtain ⟨k, hk⟩ := entryOf_of_mem opt hopt
    cases hw : walk key value root with
    | none =>
      have hopt' : opt = "@schemaEnum" ∨ opt = "@schemaRegex" ∨ opt = "@schemaMinimum" ∨
          opt = "@schemaMaximum" := by
        simpa [optionTokens] using hopt
      rw [runHandlers_unresolved opt key value root hopt' hw] at h
      cases h
    | some node =>
      rw [runHandlers_recognised opt key value k root node hk hw] at h
      cases hp : payloadOf opt value with
      | ok x =>
        simp only [hp, Option.some.injEq, Prod.mk.injEq] at h
        right
        exact ⟨h.2.symm, k, node, x, hk, rfl, rfl, h.1.symm⟩
      | error e =>
        simp only [hp, Option.some.injEq, Prod.mk.injEq] at h
        left
        exact ⟨h.1.symm, Or.inr ⟨_, h.2.symm⟩⟩
  · simp only [optionTokens, List.mem_cons, List.mem_singleton, List.not_mem_nil, or_false,
      not_or] at hopt
    rw [runHandlers_unrecognised opt key value root hopt.1 hopt.2.1 hopt.2.2.1 hopt.2.2.2] at h
    simp only [Option.some.injEq, Prod.mk.injEq] at h
    left
    exact ⟨h.1.symm, Or.inl h.2.symm⟩

/-- What a line leaves when its handling does not panic: the tree as it was, with at
most one error, or one write into the node the line addresses. -/
theorem processLine_effect (s : String) (root t : JObj) (errs : Option (List KeyError))
    (h : processLine s root = some (t, errs)) :
    (t = root ∧ (errs = none ∨ ∃ e, errs = some [e])) ∨
    (errs = none ∧ ∃ k node x,
      LineTarget s (strings.Split ((strings.Split s ' ').getD 2 "") '.') ∧
      entryOf ((strings.Split s ' ').getD 1 "") = some k ∧
      walk ((strings.Split s ' ').getD 2 "") ((strings.Split s ' ').getD 3 "") root =
        some node ∧
      payloadOf ((strings.Split s ' ').getD 1 "") ((strings.Split s ' ').getD 3 "") =
        Except.ok x ∧
      t = writeBack (strings.Split ((strings.Split s ' ').getD 2 "") '.')
        (assign node k x) root) := by
  by_cases hm : strings.HasPrefix s "##" = true ∧ 3 < (strings.Split s ' ').length
  · have hp : processLine s root =
        runHandlers ⟨(strings.Split s ' ').getD 1 "", (strings.Split s ' ').getD 2 "",
          (strings.Split s ' ').getD 3 "", root⟩ := by
      unfold processLine
      simp [hm.1, hm.2]
    rw [hp] at h
    rcases runHandlers_effect _ _ _ _ _ _ h with h' | ⟨he, k, node, x, hk, hw, hpay, ht⟩
    · exact Or.inl h'
    · exact Or.inr ⟨he, k, node, x, ⟨hm.1, hm.2, (entryOf_some _ _ hk).1, rfl⟩, hk, hw, hpay, ht⟩
  · have hp : processLine s root = some (root, none) := by
      unfold processLine
      by_cases h1 : strings.HasPrefix s "##" = true
      · have : ¬ 3 < (strings.Split s ' ').length := fun h2 => hm ⟨h1, h2⟩
        simp [h1, this]
      · simp [h1]
    rw [hp] at h
    simp only [Option.some.injEq, Prod.mk.injEq] at h
    exact Or.inl ⟨h.1.symm, Or.inl h.2.symm⟩

/-! ## Lemmas: what a line and the loop leave as it was -/

/-- One write of a patched entry into the node at `segs`: every node keeps its entries
other than `"properties"`, but for that entry of that node. -/
theorem write_frame (segs : List String) (root node : JObj) (k : String) (x : JVal)
    (hk : k ≠ "properties") (hw : walkLoop segs root = some node)
    (p : List String) (n : JObj) (hn : walkLoop p root = some n) :
    ∃ n', walkLoop p (writeBack segs (assign node k x) root) = some n' ∧
      ∀ k', k' ≠ "properties" → ¬ (p = segs ∧ k' = k) → index n' k' = index n k' := by
  obtain ⟨n', h₁, h₂, h₃⟩ := writeBack_frame segs root node (assign node k x) hw
    (fun s q => walkLoop_assign node k x hk s q) p n hn
  refine ⟨n', h₁, fun k' hk' hne => ?_⟩
  by_cases hp : p = segs
  · subst hp
    rw [hw] at hn
    cases hn
    rw [h₂ rfl]
    exact index_assign_other _ _ _ _ (fun e => hne ⟨rfl, e.symm⟩)
  · exact h₃ hp k' hk'

theorem processLine_frame (s : String) (cur t : JObj) (errs : Option (List KeyError))
    (h : processLine s cur = some (t, errs)) :
    eraseNode t = eraseNode cur ∧
    ∀ p n, walkLoop p cur = some n → ∃ n', walkLoop p t = some n' ∧
      (∀ k, k ≠ "properties" → k ∉ patchedKeys → index n' k = index n k) ∧
      (¬ LineTarget s p → ∀ k, k ≠ "properties" → index n' k = index n k) := by
  rcases processLine_effect s cur t errs h with ⟨rfl, -⟩ | ⟨-, k, node, x, ht, hk, hw, -, rfl⟩
  · exact ⟨rfl, fun p n hn => ⟨n, hn, fun _ _ _ => rfl, fun _ _ _ => rfl⟩⟩
  · obtain ⟨-, hk₁, hk₂⟩ := entryOf_some _ _ hk
    refine ⟨eraseNode_writeBack _ _ _ _ hw (eraseNode_assign_patched _ _ _ hk₁),
      fun p n hn => ?_⟩
    obtain ⟨n', h₁, h₂⟩ := write_frame _ cur node k x hk₂ hw p n hn
    refine ⟨n', h₁, fun k' hk' hnot => h₂ k' hk' (fun e => hnot (e.2 ▸ hk₁)),
      fun hnt k' hk' => h₂ k' hk' (fun e => hnt (e.1 ▸ ht))⟩

/-- A loop that finishes leaves the same paths, the same tree but for the four entries,
and at every path no directive line addresses the same entries of the node. -/
theorem patchLoop_frame (lines : List String) (cur final : JObj)
    (h : patchLoop lines cur = Patched.finished final) :
    SameShape final cur ∧ eraseNode final = eraseNode cur ∧
    ∀ p n, walkLoop p cur = some n → ∃ n', walkLoop p final = some n' ∧
      (∀ k, k ≠ "properties" → k ∉ patchedKeys → index n' k = index n k) ∧
      ((¬ ∃ line ∈ lines, LineTarget line p) →
        ∀ k, k ≠ "properties" → index n' k = index n k) := by
  induction lines generalizing cur with
  | nil =>
    simp only [patchLoop, Patched.finished.injEq] at h
    subst h
    exact ⟨SameShape.refl _, rfl, fun p n hn => ⟨n, hn, fun _ _ _ => rfl, fun _ _ _ => rfl⟩⟩
  | cons s rest ih =>
    rw [patchLoop] at h
    cases hp : processLine s cur with
    | none => simp [hp] at h
    | some r =>
      obtain ⟨t, e⟩ := r
      cases e with
      | some err => simp [hp] at h
      | none =>
        simp only [hp] at h
        obtain ⟨hs₁, he₁, hf₁⟩ := ih t h
        obtain ⟨he₀, hf₀⟩ := processLine_frame s cur t none hp
        refine ⟨hs₁.trans (processLine_shape _ _ _ _ hp), he₁.trans he₀, fun p n hn => ?_⟩
        obtain ⟨n₁, hn₁, ha₁, hb₁⟩ := hf₀ p n hn
        obtain ⟨n₂, hn₂, ha₂, hb₂⟩ := hf₁ p n₁ hn₁
        refine ⟨n₂, hn₂, fun k hk hk' => (ha₂ k hk hk').trans (ha₁ k hk hk'),
          fun hnt k hk => ?_⟩
        have h₁ : ¬ LineTarget s p := fun ht => hnt ⟨s, by simp, ht⟩
        have h₂ : ¬ ∃ line ∈ rest, LineTarget line p := fun ⟨l, hl, ht⟩ =>
          hnt ⟨l, by simp [hl], ht⟩
        exact (hb₂ h₂ k hk).trans (hb₁ h₁ k hk)

/-! ## Lemmas: the same directive again -/

theorem processLine_matching (s : String) (root : JObj)
    (hpre : strings.HasPrefix s "##" = true) (hlen : 3 < (strings.Split s ' ').length) :
    processLine s root =
      runHandlers ⟨(strings.Split s ' ').getD 1 "", (strings.Split s ' ').getD 2 "",
        (strings.Split s ' ').getD 3 "", root⟩ := by
  unfold processLine
  simp [hpre, hlen]

theorem runHandlers_success (opt key value : String) (root t : JObj)
    (hopt : opt ∈ optionTokens)
    (h : runHandlers ⟨opt, key, value, root⟩ = some (t, none)) :
    ∃ k node x, entryOf opt = some k ∧ walk key value root = some node ∧
      payloadOf opt value = Except.ok x ∧
      t = writeBack (strings.Split key '.') (assign node k x) root := by
  obtain ⟨k, hk⟩ := entryOf_of_mem opt hopt
  cases hw : walk key value root with
  | none =>
    have hopt' : opt = "@schemaEnum" ∨ opt = "@schemaRegex" ∨ opt = "@schemaMinimum" ∨
        opt = "@schemaMaximum" := by
      simpa [optionTokens] using hopt
    rw [runHandlers_unresolved opt key value root hopt' hw] at h
    cases h
  | some node =>
    rw [runHandlers_recognised opt key value k root node hk hw] at h
    cases hp : payloadOf opt value with
    | ok x =>
      simp only [hp, Option.some.injEq, Prod.mk.injEq, and_true] at h
      exact ⟨k, node, x, hk, rfl, rfl, h.symm⟩
    | error e => simp [hp] at h

/-- A directive applied to the tree an earlier directive with the same option and key
left gives the tree it gives when applied alone. -/
theorem runHandlers_after_write (opt key value k : String) (root node : JObj)
    (x₁ x₂ : JVal) (hk : entryOf opt = some k) (hw : walk key value root = some node)
    (hp : payloadOf opt value = Except.ok x₂) :
    runHandlers ⟨opt, key, value,
        writeBack (strings.Split key '.') (assign node k x₁) root⟩ =
      some (writeBack (strings.Split key '.') (assign node k x₂) root, none) := by
  have hw' : walk key value (writeBack (strings.Split key '.') (assign node k x₁) root) =
      some (assign node k x₁) := walkLoop_writeBack _ _ _ _ hw
  rw [runHandlers_recognised opt key value k _ _ hk hw']
  simp only [hp]
  rw [writeBack_writeBack _ root node _ _ hw, assign_assign]

/-! ## Lemmas: an entry no later line writes -/

theorem processLine_keeps_entry (s : String) (cur t : JObj) (errs : Option (List KeyError))
    (h : processLine s cur = some (t, errs)) (p : List String) (n : JObj) (k : String)
    (hn : walkLoop p cur = some n) (hk : k ≠ "properties")
    (hnot : ¬ (LineTarget s p ∧ entryOf ((strings.Split s ' ').getD 1 "") = some k)) :
    ∃ n', walkLoop p t = some n' ∧ index n' k = index n k := by
  rcases processLine_effect s cur t errs h with ⟨rfl, -⟩ | ⟨-, k₀, node, x, ht, hk₀, hw, -, rfl⟩
  · exact ⟨n, hn, rfl⟩
  · obtain ⟨n', h₁, h₂⟩ := write_frame _ cur node k₀ x (entryOf_some _ _ hk₀).2.2 hw p n hn
    exact ⟨n', h₁, h₂ k hk (fun e => hnot ⟨e.1 ▸ ht, e.2 ▸ hk₀⟩)⟩

theorem patchLoop_keeps_entry (lines : List String) (cur final : JObj)
    (h : patchLoop lines cur = Patched.finished final) (p : List String) (n : JObj)
    (k : String) (hn : walkLoop p cur = some n) (hk : k ≠ "properties")
    (hnot : ∀ l ∈ lines,
      ¬ (LineTarget l p ∧ entryOf ((strings.Split l ' ').getD 1 "") = some k)) :
    ∃ n', walkLoop p final = some n' ∧ index n' k = index n k := by
  induction lines generalizing cur n with
  | nil =>
    simp only [patchLoop, Patched.finished.injEq] at h
    subst h
    exact ⟨n, hn, rfl⟩
  | cons s rest ih =>
    rw [patchLoop] at h
    cases hp : processLine s cur with
    | none => simp [hp] at h
    | some r =>
      obtain ⟨t, e⟩ := r
      cases e with
      | some err => simp [hp] at h
      | none =>
        simp only [hp] at h
        obtain ⟨n₁, hn₁, e₁⟩ :=
          processLine_keeps_entry s cur t none hp p n k hn hk (hnot s (by simp))
        obtain ⟨n₂, hn₂, e₂⟩ := ih t h n₁ hn₁ (fun l hl => hnot l (by simp [hl]))
        exact ⟨n₂, hn₂, e₂.trans e₁⟩

theorem patchLoop_append_finished (pre rest : List String) (cur final : JObj)
    (h : patchLoop (pre ++ rest) cur = Patched.finished final) :
    ∃ mid, patchLoop pre cur = Patched.finished mid ∧
      patchLoop rest mid = Patched.finished final := by
  induction pre generalizing cur with
  | nil => exact ⟨cur, rfl, h⟩
  | cons s pre ih =>
    simp only [List.cons_append] at h
    rw [patchLoop] at h ⊢
    cases hp : processLine s cur with
    | none => simp [hp] at h
    | some r =>
      obtain ⟨t, e⟩ := r
      cases e with
      | some err => simp [hp] at h
      | none =>
        simp only [hp] at h ⊢
        exact ih t h

/-- The last line that writes an entry decides it: when the loop finishes on a text in
which no line after a recognised directive line addresses the same entry of the same
node, that entry holds the value of that line. -/
theorem patchLoop_last_wins (pre post : List String) (l : String) (cur final : JObj)
    (hpre : strings.HasPrefix l "##" = true) (hlen : 3 < (strings.Split l ' ').length)
    (hopt : (strings.Split l ' ').getD 1 "" ∈ optionTokens)
    (h : patchLoop (pre ++ l :: post) cur = Patched.finished final)
    (hlater : ∀ l' ∈ post,
      ¬ (LineTarget l' (strings.Split ((strings.Split l ' ').getD 2 "") '.') ∧
        entryOf ((strings.Split l' ' ').getD 1 "") =
          entryOf ((strings.Split l ' ').getD 1 ""))) :
    ∃ k x node, entryOf ((strings.Split l ' ').getD 1 "") = some k ∧
      payloadOf ((strings.Split l ' ').getD 1 "") ((strings.Split l ' ').getD 3 "") =
        Except.ok x ∧
      walkLoop (strings.Split ((strings.Split l ' ').getD 2 "") '.') final = some node ∧
      index node k = x := by
  obtain ⟨mid, -, h₂⟩ := patchLoop_append_finished pre (l :: post) cur final h
  rw [patchLoop] at h₂
  cases hp : processLine l mid with
  | none => simp [hp] at h₂
  | some r =>
    obtain ⟨t, e⟩ := r
    cases e with
    | some err => simp [hp] at h₂
    | none =>
      simp only [hp] at h₂
      rw [processLine_matching l mid hpre hlen] at hp
      obtain ⟨k, node, x, hk, hw, hpay, rfl⟩ := runHandlers_success _ _ _ mid t hopt hp
      have hw' := walkLoop_writeBack _ _ _ (assign node k x) hw
      obtain ⟨n', hn', e'⟩ := patchLoop_keeps_entry post _ final h₂ _ _ k hw'
        (entryOf_some _ _ hk).2.2 (fun l' hl' hc => hlater l' hl' ⟨hc.1, hc.2.trans hk.symm⟩)
      exact ⟨k, x, n', hk, hpay, hn', e'.trans (index_assign_same _ _ _)⟩

/-! ## The Path Resolver -/

/-- C1: when every segment of the dotted key resolves, `walk` returns exactly the node
reached from the root by going to `current["properties"][segment]` for each segment
of `strings.Split(key, ".")` from left to right; for a key without a dot that node
is `root["properties"][key]`. -/
theorem walk_returns_descent (key value : String) (root node : JObj)
    (h : Resolves root (strings.Split key '.') node) :
    walk key value root = some node ∧
      ('.' ∉ key.data →
        ∃ props, index root "properties" = JVal.obj props ∧ index props key = JVal.obj node) := by
  refine ⟨(walkLoop_eq_some_iff _ _ _).2 h, fun hdot => ?_⟩
  rw [Split_no_sep key '.' hdot] at h
  cases h with
  | step hprops hchild hrest =>
    cases hrest
    exact ⟨_, hprops, hchild⟩

theorem walk_returns_descent_witness :
    Resolves sampleRoot (strings.Split "database.host" '.') [("type", JVal.str "string")] ∧
      walk "database.host" "" sampleRoot = some [("type", JVal.str "string")] ∧
      Resolves sampleRoot (strings.Split "port" '.') [("type", JVal.str "integer")] ∧
      walk "port" "" sampleRoot = some [("type", JVal.str "integer")] ∧
      ∃ props, index sampleRoot "properties" = JVal.obj props ∧
        index props "port" = JVal.obj [("type", JVal.str "integer")] :=
  have h₁ : Resolves sampleRoot (strings.Split "database.host" '.')
      [("type", JVal.str "string")] :=
    (walkLoop_eq_some_iff _ _ _).1 (by rfl)
  have h₂ : Resolves sampleRoot (strings.Split "port" '.') [("type", JVal.str "integer")] :=
    (walkLoop_eq_some_iff _ _ _).1 (by rfl)
  ⟨h₁, (walk_returns_descent "database.host" "" sampleRoot _ h₁).1, h₂,
    (walk_returns_descent "port" "" sampleRoot _ h₂).1,
    (walk_returns_descent "port" "" sampleRoot _ h₂).2 (by decide)⟩

/-- C2: `walk` fails (panics, returning no node) exactly when at some step of the
descent the node reached so far has no `"properties"` entry that is a mapping, or
that mapping has no mapping-valued entry for the segment of that step; in every
other case it returns a node. -/
theorem walk_fails_iff (key value : String) (root : JObj) :
    (walk key value root = none ↔
      ∃ pre seg post cur, strings.Split key '.' = pre ++ seg :: post ∧
        walkLoop pre root = some cur ∧ StepFails cur seg) ∧
    ((¬ ∃ pre seg post cur, strings.Split key '.' = pre ++ seg :: post ∧
        walkLoop pre root = some cur ∧ StepFails cur seg) ↔
      ∃ node, walk key value root = some node) := by
  have h := walkLoop_eq_none_iff (strings.Split key '.') root
  refine ⟨h, ?_⟩
  rw [← h]
  show ¬ walk key value root = none ↔ _
  cases walk key value root <;> simp

/-! ## Ignored lines -/

/-- C3: a line that does not start with the two characters `##` (a single-`#` comment,
or `##` after leading whitespace, included), or that splits on single spaces into
fewer than four fields, leaves the schema tree as it is and gives no error; the loop
goes on to the next line with the same tree. -/
theorem processLine_ignores (s : String) (jsonValues : JObj)
    (h : strings.HasPrefix s "##" = false ∨ (strings.Split s ' ').length < 4) :
    processLine s jsonValues = some (jsonValues, none) ∧
      ∀ rest, patchLoop (s :: rest) jsonValues = patchLoop rest jsonValues := by
  have hp : processLine s jsonValues = some (jsonValues, none) := by
    unfold processLine
    rcases h with h | h
    · simp [h]
    · have : ¬ (strings.Split s ' ').length > 3 := by omega
      simp [this]
  exact ⟨hp, fun rest => by simp [patchLoop, hp]⟩

theorem processLine_ignores_witness :
    (processLine "# just a comment" sampleRoot = some (sampleRoot, none) ∧
      ∀ rest, patchLoop ("# just a comment" :: rest) sampleRoot = patchLoop rest sampleRoot) ∧
    (processLine "  ## @schemaMinimum port 1" sampleRoot = some (sampleRoot, none) ∧
      ∀ rest, patchLoop ("  ## @schemaMinimum port 1" :: rest) sampleRoot =
        patchLoop rest sampleRoot) ∧
    (processLine "## not.enough" sampleRoot = some (sampleRoot, none) ∧
      ∀ rest, patchLoop ("## not.enough" :: rest) sampleRoot = patchLoop rest sampleRoot) :=
  ⟨processLine_ignores "# just a comment" sampleRoot (Or.inl (by decide)),
    processLine_ignores "  ## @schemaMinimum port 1" sampleRoot (Or.inl (by decide)),
    processLine_ignores "## not.enough" sampleRoot (Or.inr (by decide))⟩

/-! ## The string directives -/

/-- C4: when `key` resolves, the directive `@schemaEnum key value` succeeds (no panic,
nil error), in the handler and in the whole sequence of four handlers, and leaves at
the resolved node an `"enum"` entry holding the fragments of `value` split on `","`:
joining them with `","` gives `value` back and none contains a comma, so every
fragment is verbatim, in order and kept when repeated; for `"a,b,c"` the list is
`["a","b","c"]`. -/
theorem schemaEnum_sets_enum (key value : String) (root node : JObj)
    (h : walk key value root = some node) :
    ∃ root' : JObj,
      extractEnums ⟨"@schemaEnum", key, value, root⟩ = some (root', none) ∧
      runHandlers ⟨"@schemaEnum", key, value, root⟩ = some (root', none) ∧
      walk key value root' =
        some (assign node "enum" (JVal.strs (strings.Split value ','))) ∧
      index (assign node "enum" (JVal.strs (strings.Split value ','))) "enum" =
        JVal.strs (strings.Split value ',') ∧
      List.intercalate [','] ((strings.Split value ',').map String.data) = value.data ∧
      (∀ frag ∈ strings.Split value ',', ',' ∉ frag.data) ∧
      strings.Split "a,b,c" ',' = ["a", "b", "c"] ∧
      strings.Split " a ,b,b" ',' = [" a ", "b", "b"] := by
  refine ⟨_, extractEnums_apply key value root node h, ?_, ?_, index_assign_same _ _ _, ?_, ?_,
    by decide, by decide⟩
  · rw [runHandlers_enum, extractEnums_apply key value root node h]
    rfl
  · exact walkLoop_writeBack _ _ _ _ h
  · have := splitChars_intercalate ',' value.data
    simpa [strings.Split, Function.comp_def] using this
  · intro frag hf
    simp only [strings.Split, List.mem_map] at hf
    obtain ⟨cs, hcs, rfl⟩ := hf
    exact splitChars_sep_not_mem ',' value.data cs hcs

theorem schemaEnum_sets_enum_witness :
    walk "port" "a,b,c" sampleRoot = some [("type", JVal.str "integer")] ∧
    ∃ root' : JObj,
      extractEnums ⟨"@schemaEnum", "port", "a,b,c", sampleRoot⟩ = some (root', none) ∧
      runHandlers ⟨"@schemaEnum", "port", "a,b,c", sampleRoot⟩ = some (root', none) ∧
      walk "port" "a,b,c" root' =
        some (assign [("type", JVal.str "integer")] "enum"
          (JVal.strs (strings.Split "a,b,c" ','))) ∧
      index (assign [("type", JVal.str "integer")] "enum"
          (JVal.strs (strings.Split "a,b,c" ','))) "enum" =
        JVal.strs (strings.Split "a,b,c" ',') ∧
      List.intercalate [','] ((strings.Split "a,b,c" ',').map String.data) = "a,b,c".data ∧
      (∀ frag ∈ strings.Split "a,b,c" ',', ',' ∉ frag.data) ∧
      strings.Split "a,b,c" ',' = ["a", "b", "c"] ∧
      strings.Split " a ,b,b" ',' = [" a ", "b", "b"] :=
  ⟨by rfl, schemaEnum_sets_enum "port" "a,b,c" sampleRoot _ (by rfl)⟩

/-- C5: when `key` resolves, the directive `@schemaRegex key value` succeeds (no panic,
nil error), in the handler and in the whole sequence of four handlers, and leaves at
the resolved node a `"pattern"` entry that is the string `value` itself, whatever the
string is. -/
theorem schemaRegex_sets_pattern (key value : String) (root node : JObj)
    (h : walk key value root = some node) :
    ∃ root' : JObj,
      extractRegex ⟨"@schemaRegex", key, value, root⟩ = some (root', none) ∧
      runHandlers ⟨"@schemaRegex", key, value, root⟩ = some (root', none) ∧
      walk key value root' = some (assign node "pattern" (JVal.str value)) ∧
      index (assign node "pattern" (JVal.str value)) "pattern" = JVal.str value := by
  refine ⟨_, extractRegex_apply key value root node h, ?_, ?_, index_assign_same _ _ _⟩
  · rw [runHandlers_regex, extractRegex_apply key value root node h]
    rfl
  · exact walkLoop_writeBack _ _ _ _ h

theorem schemaRegex_sets_pattern_witness :
    walk "database.host" " ^[a-z]+(( $" sampleRoot = some [("type", JVal.str "string")] ∧
    ∃ root' : JObj,
      extractRegex ⟨"@schemaRegex", "database.host", " ^[a-z]+(( $", sampleRoot⟩ =
        some (root', none) ∧
      runHandlers ⟨"@schemaRegex", "database.host", " ^[a-z]+(( $", sampleRoot⟩ =
        some (root', none) ∧
      walk "database.host" " ^[a-z]+(( $" root' =
        some (assign [("type", JVal.str "string")] "pattern" (JVal.str " ^[a-z]+(( $")) ∧
      index (assign [("type", JVal.str "string")] "pattern" (JVal.str " ^[a-z]+(( $"))
        "pattern" = JVal.str " ^[a-z]+(( $" :=
  ⟨by rfl, schemaRegex_sets_pattern "database.host" " ^[a-z]+(( $" sampleRoot _ (by rfl)⟩

/-! ## The numeric directives -/

/-- C6, as the code has it: for `@schemaMinimum` (entry `"minimum"`) and
`@schemaMaximum` (entry `"maximum"`), when `key` resolves and the payload is a base-10
signed integer literal whose value lies in the 32-bit range `-2147483648 .. 2147483647`,
the directive succeeds (no panic, nil error) and leaves at the resolved node the entry
holding the integer the payload denotes. -/
theorem numeric_directive_sets_value (key payload : String) (root node : JObj) (v : Int)
    (h : walk key payload root = some node) (hv : literalValue payload = some v)
    (hr : -2147483648 ≤ v ∧ v ≤ 2147483647) :
    (∃ root' : JObj,
      extractMinimum ⟨"@schemaMinimum", key, payload, root⟩ = some (root', none) ∧
      runHandlers ⟨"@schemaMinimum", key, payload, root⟩ = some (root', none) ∧
      walk key payload root' = some (assign node "minimum" (JVal.int v)) ∧
      index (assign node "minimum" (JVal.int v)) "minimum" = JVal.int v) ∧
    (∃ root' : JObj,
      extractMaximum ⟨"@schemaMaximum", key, payload, root⟩ = some (root', none) ∧
      runHandlers ⟨"@schemaMaximum", key, payload, root⟩ = some (root', none) ∧
      walk key payload root' = some (assign node "maximum" (JVal.int v)) ∧
      index (assign node "maximum" (JVal.int v)) "maximum" = JVal.int v) := by
  have hp : ParseInt payload 10 32 = (v, none) := (ParseInt_ok_iff payload v).2 ⟨hv, hr⟩
  constructor
  · refine ⟨_, extractMinimum_ok key payload root node v h hp, ?_,
      walkLoop_writeBack _ _ _ _ h, index_assign_same _ _ _⟩
    rw [runHandlers_minimum, extractMinimum_ok key payload root node v h hp]
    rfl
  · refine ⟨_, extractMaximum_ok key payload root node v h hp, ?_,
      walkLoop_writeBack _ _ _ _ h, index_assign_same _ _ _⟩
    rw [runHandlers_maximum, extractMaximum_ok key payload root node v h hp]
    rfl

theorem numeric_directive_sets_value_witness :
    walk "port" "5" sampleRoot = some [("type", JVal.str "integer")] ∧
    literalValue "5" = some 5 ∧
    (∃ root' : JObj,
      extractMinimum ⟨"@schemaMinimum", "port", "5", sampleRoot⟩ = some (root', none) ∧
      runHandlers ⟨"@schemaMinimum", "port", "5", sampleRoot⟩ = some (root', none) ∧
      walk "port" "5" root' =
        some (assign [("type", JVal.str "integer")] "minimum" (JVal.int 5)) ∧
      index (assign [("type", JVal.str "integer")] "minimum" (JVal.int 5)) "minimum" =
        JVal.int 5) ∧
    (∃ root' : JObj,
      extractMaximum ⟨"@schemaMaximum", "port", "5", sampleRoot⟩ = some (root', none) ∧
      runHandlers ⟨"@schemaMaximum", "port", "5", sampleRoot⟩ = some (root', none) ∧
      walk "port" "5" root' =
        some (assign [("type", JVal.str "integer")] "maximum" (JVal.int 5)) ∧
      index (assign [("type", JVal.str "integer")] "maximum" (JVal.int 5)) "maximum" =
        JVal.int 5) :=
  ⟨by rfl, by decide,
    numeric_directive_sets_value "port" "5" sampleRoot _ 5 (by rfl) (by decide) (by decide)⟩

/-- C6 fails as stated: `2147483648` is a base-10 signed integer literal and `port`
resolves, yet `@schemaMinimum port 2147483648` and `@schemaMaximum port 2147483648`
return a range error and write nothing. -/
theorem numeric_directive_range_counterexample :
    walk "port" "2147483648" sampleRoot = some [("type", JVal.str "integer")] ∧
    literalValue "2147483648" = some 2147483648 ∧
    extractMinimum ⟨"@schemaMinimum", "port", "2147483648", sampleRoot⟩ =
      some (sampleRoot, some ⟨"port", ⟨"ParseInt", "2147483648", NumErr.ErrRange⟩⟩) ∧
    extractMaximum ⟨"@schemaMaximum", "port", "2147483648", sampleRoot⟩ =
      some (sampleRoot, some ⟨"port", ⟨"ParseInt", "2147483648", NumErr.ErrRange⟩⟩) ∧
    ¬ (∃ root' : JObj,
      extractMinimum ⟨"@schemaMinimum", "port", "2147483648", sampleRoot⟩ =
        some (root', none)) ∧
    ¬ (∃ root' : JObj,
      extractMaximum ⟨"@schemaMaximum", "port", "2147483648", sampleRoot⟩ =
        some (root', none)) := by
  have hw : walk "port" "2147483648" sampleRoot = some [("type", JVal.str "integer")] := by rfl
  have hp : ParseInt "2147483648" 10 32 =
      (2147483647, some ⟨"ParseInt", "2147483648", NumErr.ErrRange⟩) := by rfl
  have hmin := extractMinimum_err "port" "2147483648" sampleRoot _ _ _ hw hp
  have hmax := extractMaximum_err "port" "2147483648" sampleRoot _ _ _ hw hp
  refine ⟨hw, by decide, hmin, hmax, ?_, ?_⟩
  · rintro ⟨root', h⟩
    rw [hmin] at h
    simp at h
  · rintro ⟨root', h⟩
    rw [hmax] at h
    simp at h

/-- C7: for `@schemaMinimum` and `@schemaMaximum`, when `key` resolves and the payload
is not a base-10 integer literal, the directive returns an error (in the handler, and
joined from the four handlers), the tree is as before, and the message of the error
contains `key`. -/
theorem numeric_directive_rejects (key payload : String) (root node : JObj)
    (h : walk key payload root = some node) (hv : literalValue payload = none) :
    ∃ e : KeyError,
      extractMinimum ⟨"@schemaMinimum", key, payload, root⟩ = some (root, some e) ∧
      extractMaximum ⟨"@schemaMaximum", key, payload, root⟩ = some (root, some e) ∧
      runHandlers ⟨"@schemaMinimum", key, payload, root⟩ = some (root, some [e]) ∧
      runHandlers ⟨"@schemaMaximum", key, payload, root⟩ = some (root, some [e]) ∧
      ∀ quote : String → String, ∃ pre post : String,
        e.Error quote = pre ++ key ++ post ∧ joinedError quote [e] = pre ++ key ++ post := by
  cases hp : ParseInt payload 10 32 with
  | mk v err =>
    cases err with
    | none =>
      have := ((ParseInt_ok_iff payload v).1 hp).1
      rw [hv] at this
      cases this
    | some e =>
      have hmin := extractMinimum_err key payload root node v e h hp
      have hmax := extractMaximum_err key payload root node v e h hp
      refine ⟨⟨key, e⟩, hmin, hmax, ?_, ?_, ?_⟩
      · rw [runHandlers_minimum, hmin]
        rfl
      · rw [runHandlers_maximum, hmax]
        rfl
      · intro quote
        refine ⟨"'", "' must return an integer : " ++ e.Error quote, ?_, ?_⟩
        · simp [KeyError.Error, String.append_assoc]
        · simp [joinedError, KeyError.Error, String.append_assoc, String.intercalate,
            String.intercalate.go]

theorem numeric_directive_rejects_witness :
    walk "port" "abc" sampleRoot = some [("type", JVal.str "integer")] ∧
    literalValue "abc" = none ∧
    ∃ e : KeyError,
      extractMinimum ⟨"@schemaMinimum", "port", "abc", sampleRoot⟩ =
        some (sampleRoot, some e) ∧
      extractMaximum ⟨"@schemaMaximum", "port", "abc", sampleRoot⟩ =
        some (sampleRoot, some e) ∧
      runHandlers ⟨"@schemaMinimum", "port", "abc", sampleRoot⟩ =
        some (sampleRoot, some [e]) ∧
      runHandlers ⟨"@schemaMaximum", "port", "abc", sampleRoot⟩ =
        some (sampleRoot, some [e]) ∧
      ∀ quote : String → String, ∃ pre post : String,
        e.Error quote = pre ++ "port" ++ post ∧
          joinedError quote [e] = pre ++ "port" ++ post :=
  ⟨by rfl, by decide, numeric_directive_rejects "port" "abc" sampleRoot _ (by rfl) (by decide)⟩

/-! ## Directives on paths that do not resolve -/

/-- C8: when the file is read and its schema decoded, and some line of the source
text starts with `##`, has at least four fields, has one of the four recognised
tokens as option and a dotted key that does not resolve in the schema tree, then the
run fails: the patch loop panics or returns an error, it never finishes, and no
schema is printed. -/
theorem unresolved_directive_fails_run (ext : Externals) (path data line : String)
    (root : JObj)
    (hread : ext.ReadFile path = Except.ok data)
    (hjson : ext.jsonUnmarshal (ext.schemaString (ext.yamlUnmarshal data).1) = Except.ok root)
    (hline : line ∈ strings.Split data '\n')
    (hpre : strings.HasPrefix line "##" = true)
    (hlen : 3 < (strings.Split line ' ').length)
    (hopt : (strings.Split line ' ').getD 1 "" = "@schemaEnum" ∨
      (strings.Split line ' ').getD 1 "" = "@schemaRegex" ∨
      (strings.Split line ' ').getD 1 "" = "@schemaMinimum" ∨
      (strings.Split line ' ').getD 1 "" = "@schemaMaximum")
    (hkey : walk ((strings.Split line ' ').getD 2 "") ((strings.Split line ' ').getD 3 "")
      root = none) :
    (patch data root = Patched.panicked ∨ ∃ err, patch data root = Patched.failed err) ∧
    (RunE ext [path] = RunResult.panicked ∨
      ∃ err, RunE ext [path] = RunResult.returned (RunError.directives err)) ∧
    ∀ j, RunE ext [path] ≠ RunResult.printed j := by
  have hp := patchLoop_unresolved _ line root hline hpre hlen hopt hkey root (SameShape.refl _)
  have hrun : RunE ext [path] = RunResult.panicked ∨
      ∃ err, RunE ext [path] = RunResult.returned (RunError.directives err) := by
    unfold RunE
    simp only [hread, hjson]
    rcases hp with hp | ⟨err, hp⟩
    · left
      simp only [patch, hp]
    · right
      exact ⟨err, by simp only [patch, hp]⟩
  refine ⟨hp, hrun, fun j hj => ?_⟩
  rcases hrun with h | ⟨err, h⟩
  · rw [h] at hj
    cases hj
  · rw [h] at hj
    cases hj

theorem unresolved_directive_fails_run_witness :
    ("## @schemaRegex missing.key ^x$" ∈
      strings.Split "port: 8080\n## @schemaRegex missing.key ^x$" '\n') ∧
    walk "missing.key" "^x$" sampleRoot = none ∧
    (patch "port: 8080\n## @schemaRegex missing.key ^x$" sampleRoot = Patched.panicked ∨
      ∃ err, patch "port: 8080\n## @schemaRegex missing.key ^x$" sampleRoot =
        Patched.failed err) ∧
    (RunE (fixedExternals "port: 8080\n## @schemaRegex missing.key ^x$" sampleRoot)
        ["values.yaml"] = RunResult.panicked ∨
      ∃ err, RunE (fixedExternals "port: 8080\n## @schemaRegex missing.key ^x$" sampleRoot)
        ["values.yaml"] = RunResult.returned (RunError.directives err)) ∧
    ∀ j, RunE (fixedExternals "port: 8080\n## @schemaRegex missing.key ^x$" sampleRoot)
      ["values.yaml"] ≠ RunResult.printed j :=
  ⟨by decide, by rfl,
    unresolved_directive_fails_run
      (fixedExternals "port: 8080\n## @schemaRegex missing.key ^x$" sampleRoot)
      "values.yaml" "port: 8080\n## @schemaRegex missing.key ^x$"
      "## @schemaRegex missing.key ^x$" sampleRoot rfl rfl (by decide) (by decide) (by decide)
      (Or.inr (Or.inl (by decide))) (by rfl)⟩

/-! ## End to end -/

/-- C9: after a line that is no directive, a `@schemaMinimum` line and then a
`@schemaMaximum` line for the same resolvable key, with literals in the 32-bit range,
make the loop finish with a tree whose node at the key is the original node with
`"minimum"` and `"maximum"` set and every other entry as it was; and whatever the two
payloads are, when the loop finishes on such a text the node is the original one
with the two entries set to the values of the payloads; in particular for the text `port: 8080`, `## @schemaMinimum port 1`, `## @schemaMaximum port 65535` and
a tree where `port` resolves to `{"type":"integer"}`, the node becomes exactly
`{"type":"integer","minimum":1,"maximum":65535}`. -/
theorem min_max_end_to_end (first key a b : String) (root node : JObj) (va vb : Int)
    (hfirst : strings.HasPrefix first "##" = false) (hnl : '\n' ∉ first.data)
    (hk : walk key "" root = some node) (hsp : ' ' ∉ key.data) (hknl : '\n' ∉ key.data)
    (ha : literalValue a = some va) (hra : -2147483648 ≤ va ∧ va ≤ 2147483647)
    (hb : literalValue b = some vb) (hrb : -2147483648 ≤ vb ∧ vb ≤ 2147483647) :
    (∃ root' : JObj,
      patch (first ++ "\n" ++ directiveLine "@schemaMinimum" key a ++ "\n" ++
        directiveLine "@schemaMaximum" key b) root = Patched.finished root' ∧
      walk key "" root' =
        some (assign (assign node "minimum" (JVal.int va)) "maximum" (JVal.int vb)) ∧
      ∀ k : String,
        index (assign (assign node "minimum" (JVal.int va)) "maximum" (JVal.int vb)) k =
          if k = "maximum" then JVal.int vb
          else if k = "minimum" then JVal.int va
          else index node k) ∧
    (∀ (a' b' : String) (root' : JObj), ' ' ∉ a'.data → '\n' ∉ a'.data → ' ' ∉ b'.data →
      '\n' ∉ b'.data →
      patch (first ++ "\n" ++ directiveLine "@schemaMinimum" key a' ++ "\n" ++
        directiveLine "@schemaMaximum" key b') root = Patched.finished root' →
      ∃ va' vb' : Int, literalValue a' = some va' ∧ literalValue b' = some vb' ∧
        walk key "" root' =
          some (assign (assign node "minimum" (JVal.int va')) "maximum" (JVal.int vb'))) ∧
    (∀ root₀ : JObj, walk "port" "" root₀ = some [("type", JVal.str "integer")] →
      ∃ root' : JObj,
        patch "port: 8080\n## @schemaMinimum port 1\n## @schemaMaximum port 65535" root₀ =
          Patched.finished root' ∧
        walk "port" "" root' =
          some [("type", JVal.str "integer"), ("minimum", JVal.int 1),
            ("maximum", JVal.int 65535)]) := by
  refine ⟨?_, ?_, ?_⟩
  · obtain ⟨root', h₁, h₂⟩ :=
      patch_min_then_max first key a b root node va vb hfirst hnl hk hsp hknl ha hra hb hrb
    refine ⟨root', h₁, h₂, fun k => ?_⟩
    by_cases hmax : k = "maximum"
    · subst hmax
      simp [index_assign_same]
    · by_cases hmin : k = "minimum"
      · subst hmin
        rw [index_assign_other _ _ _ _ (Ne.symm hmax), index_assign_same]
        simp
      · rw [index_assign_other _ _ _ _ (Ne.symm hmax),
          index_assign_other _ _ _ _ (Ne.symm hmin)]
        simp [hmax, hmin]
  · intro a' b' root' ha₁ ha₂ hb₁ hb₂ hfin
    exact patch_min_max_finished first key a' b' root node root' hfirst hnl hk hsp hknl
      ha₁ ha₂ hb₁ hb₂ hfin
  · intro root₀ h₀
    obtain ⟨root', h₁, h₂⟩ :=
      patch_min_then_max "port: 8080" "port" "1" "65535" root₀ _ 1 65535 (by decide)
        (by decide) h₀ (by decide) (by decide) (by decide) (by decide) (by decide) (by decide)
    have e : "port: 8080" ++ "\n" ++ directiveLine "@schemaMinimum" "port" "1" ++ "\n" ++
        directiveLine "@schemaMaximum" "port" "65535" =
        "port: 8080\n## @schemaMinimum port 1\n## @schemaMaximum port 65535" := by decide
    rw [e] at h₁
    exact ⟨root', h₁, h₂⟩

theorem min_max_end_to_end_witness :
    walk "port" "" (inferNode (YVal.map [("port", YVal.int 8080)])) =
      some [("type", JVal.str "integer")] ∧
    literalValue "1" = some 1 ∧ literalValue "65535" = some 65535 ∧
    ∃ root' : JObj,
      patch "port: 8080\n## @schemaMinimum port 1\n## @schemaMaximum port 65535"
        (inferNode (YVal.map [("port", YVal.int 8080)])) = Patched.finished root' ∧
      walk "port" "" root' =
        some [("type", JVal.str "integer"), ("minimum", JVal.int 1),
          ("maximum", JVal.int 65535)] :=
  ⟨by rfl, by decide, by decide,
    (min_max_end_to_end "port: 8080" "port" "1" "65535"
      (inferNode (YVal.map [("port", YVal.int 8080)])) [("type", JVal.str "integer")] 1 65535
      (by decide) (by decide) (by rfl) (by decide) (by decide) (by decide) (by decide)
      (by decide) (by decide)).2.2 _ (by rfl)⟩

/-! ## Round trip through the inferencer -/

/-- C10, as the code has it: in the schema inferred from a mapping, `walk` on the
dotted path of a key, or of nested keys, that exist in the mapping returns the node
inferred for the value there, provided none of the keys contains a dot. -/
theorem inferred_keys_resolve (m : List (String × YVal)) (ks : List String) (v : YVal)
    (value : String) (hne : ks ≠ []) (hex : yamlAt ks (YVal.map m) = some v)
    (hdot : ∀ k ∈ ks, '.' ∉ k.data) :
    inferSchema (YVal.map m) = some (inferNode (YVal.map m)) ∧
      walk (dottedPath ks) value (inferNode (YVal.map m)) = some (inferNode v) := by
  refine ⟨rfl, ?_⟩
  unfold walk
  rw [Split_dottedPath ks hne hdot]
  exact walkLoop_infer ks _ v hex

theorem inferred_keys_resolve_witness :
    yamlAt ["database", "host"]
      (YVal.map [("port", YVal.int 8080),
        ("database", YVal.map [("host", YVal.str "db")])]) = some (YVal.str "db") ∧
    dottedPath ["database", "host"] = "database.host" ∧
    inferSchema (YVal.map [("port", YVal.int 8080),
        ("database", YVal.map [("host", YVal.str "db")])]) =
      some (inferNode (YVal.map [("port", YVal.int 8080),
        ("database", YVal.map [("host", YVal.str "db")])])) ∧
    walk (dottedPath ["database", "host"]) ""
      (inferNode (YVal.map [("port", YVal.int 8080),
        ("database", YVal.map [("host", YVal.str "db")])])) =
      some (inferNode (YVal.str "db")) :=
  ⟨by rfl, by decide,
    inferred_keys_resolve _ ["database", "host"] (YVal.str "db") "" (by decide) (by rfl)
      (by decide)⟩

/-- C10 fails as stated: the mapping `{"a.b": 1}` has the key `a.b`, its inferred
schema has the child `a.b`, and `walk` on `a.b` panics, because the key is split at
its dot. -/
theorem dotted_key_counterexample :
    yamlAt ["a.b"] (YVal.map [("a.b", YVal.int 1)]) = some (YVal.int 1) ∧
    dottedPath ["a.b"] = "a.b" ∧
    inferSchema (YVal.map [("a.b", YVal.int 1)]) =
      some [("type", JVal.str "object"),
        ("properties", JVal.obj [("a.b", JVal.obj [("type", JVal.str "integer")])])] ∧
    walk "a.b" "" (inferNode (YVal.map [("a.b", YVal.int 1)])) = none := by
  refine ⟨by rfl, by decide, by rfl, by rfl⟩

/-! ## Lines with an unrecognised option -/

/-- C15: a line that starts with `##` and has at least four fields, whose second field
is none of `@schemaEnum`, `@schemaRegex`, `@schemaMinimum`, `@schemaMaximum`, leaves
the schema tree as it is and gives no error, whether or not its third field resolves:
no handler walks the path. -/
theorem processLine_unrecognised (s : String) (jsonValues : JObj)
    (hpre : strings.HasPrefix s "##" = true) (hlen : 3 < (strings.Split s ' ').length)
    (hopt : (strings.Split s ' ').getD 1 "" ∉ optionTokens) :
    processLine s jsonValues = some (jsonValues, none) ∧
      ∀ rest, patchLoop (s :: rest) jsonValues = patchLoop rest jsonValues := by
  have hp : processLine s jsonValues = some (jsonValues, none) := by
    unfold processLine
    simp only [hpre, Bool.true_and, decide_eq_true_eq, gt_iff_lt, hlen, if_true]
    simp only [optionTokens, List.mem_cons, List.mem_singleton, List.not_mem_nil, or_false,
      not_or] at hopt
    exact runHandlers_unrecognised _ _ _ _ hopt.1 hopt.2.1 hopt.2.2.1 hopt.2.2.2
  exact ⟨hp, fun rest => by simp [patchLoop, hp]⟩

theorem processLine_unrecognised_witness :
    walk "missing.key" "^x$" sampleRoot = none ∧
    processLine "## @schemaPattern missing.key ^x$" sampleRoot = some (sampleRoot, none) ∧
      ∀ rest, patchLoop ("## @schemaPattern missing.key ^x$" :: rest) sampleRoot =
        patchLoop rest sampleRoot :=
  ⟨by rfl, processLine_unrecognised "## @schemaPattern missing.key ^x$" sampleRoot
    (by decide) (by decide) (by decide)⟩

/-! ## Text after the fourth field -/

/-- C16: for a line that starts with `##` and has four or more space-separated fields,
the tree and the error the line leaves are those of the line cut after its fourth
field: the cut line has exactly the first four fields, and nothing after them is
read. -/
theorem processLine_firstFour (s : String) (jsonValues : JObj)
    (hpre : strings.HasPrefix s "##" = true) (hlen : 3 < (strings.Split s ' ').length) :
    processLine s jsonValues = processLine (firstFour s) jsonValues ∧
      strings.Split (firstFour s) ' ' = (strings.Split s ' ').take 4 ∧
      processLine s jsonValues =
        runHandlers ⟨(strings.Split s ' ').getD 1 "", (strings.Split s ' ').getD 2 "",
          (strings.Split s ' ').getD 3 "", jsonValues⟩ := by
  obtain ⟨p0, opt, key, value, more, hs⟩ := Split_length_ge_four s hlen
  obtain ⟨h4, hp4⟩ := firstFour_fields s p0 opt key value more hs hpre
  have e₁ := processLine_of_fields s p0 opt key value more jsonValues hpre hs
  have e₂ := processLine_of_fields (firstFour s) p0 opt key value [] jsonValues hp4 h4
  refine ⟨by rw [e₁, e₂], by rw [h4, hs]; rfl, ?_⟩
  rw [e₁, hs]
  rfl

theorem processLine_firstFour_witness :
    firstFour "## @schemaRegex database.host ^a b$ c" = "## @schemaRegex database.host ^a" ∧
    processLine "## @schemaRegex database.host ^a b$ c" sampleRoot =
      processLine (firstFour "## @schemaRegex database.host ^a b$ c") sampleRoot ∧
    strings.Split (firstFour "## @schemaRegex database.host ^a b$ c") ' ' =
      (strings.Split "## @schemaRegex database.host ^a b$ c" ' ').take 4 ∧
    processLine "## @schemaRegex database.host ^a b$ c" sampleRoot =
      runHandlers ⟨(strings.Split "## @schemaRegex database.host ^a b$ c" ' ').getD 1 "",
        (strings.Split "## @schemaRegex database.host ^a b$ c" ' ').getD 2 "",
        (strings.Split "## @schemaRegex database.host ^a b$ c" ' ').getD 3 "", sampleRoot⟩ :=
  ⟨by decide, processLine_firstFour "## @schemaRegex database.host ^a b$ c" sampleRoot
    (by decide) (by decide)⟩

/-! ## Failing numeric directives -/

/-- C17: when `key` resolves and `ParseInt` fails on the payload, `@schemaMinimum` and
`@schemaMaximum` return the error and the schema tree after the handler, and after
all four handlers, is the tree before, whatever entries the target node has; the loop
stops at such a line with that error. -/
theorem failing_numeric_directive_atomic (key payload : String) (root node : JObj)
    (v : Int) (e : NumError)
    (h : walk key payload root = some node) (hp : ParseInt payload 10 32 = (v, some e)) :
    extractMinimum ⟨"@schemaMinimum", key, payload, root⟩ = some (root, some ⟨key, e⟩) ∧
    extractMaximum ⟨"@schemaMaximum", key, payload, root⟩ = some (root, some ⟨key, e⟩) ∧
    runHandlers ⟨"@schemaMinimum", key, payload, root⟩ = some (root, some [⟨key, e⟩]) ∧
    runHandlers ⟨"@schemaMaximum", key, payload, root⟩ = some (root, some [⟨key, e⟩]) ∧
    (' ' ∉ key.data → ' ' ∉ payload.data → ∀ rest,
      patchLoop (directiveLine "@schemaMinimum" key payload :: rest) root =
        Patched.failed [⟨key, e⟩] ∧
      patchLoop (directiveLine "@schemaMaximum" key payload :: rest) root =
        Patched.failed [⟨key, e⟩]) := by
  refine ⟨extractMinimum_err key payload root node v e h hp,
    extractMaximum_err key payload root node v e h hp,
    runHandlers_minimum_err key payload root node v e h hp,
    runHandlers_maximum_err key payload root node v e h hp, ?_⟩
  intro hk hv rest
  have h₁ := processLine_directiveLine "@schemaMinimum" key payload root (by decide) hk hv
  rw [runHandlers_minimum_err key payload root node v e h hp] at h₁
  have h₂ := processLine_directiveLine "@schemaMaximum" key payload root (by decide) hk hv
  rw [runHandlers_maximum_err key payload root node v e h hp] at h₂
  exact ⟨by simp [patchLoop, h₁], by simp [patchLoop, h₂]⟩

theorem failing_numeric_directive_atomic_witness :
    walk "port" "abc" boundedRoot =
      some [("type", JVal.str "integer"), ("minimum", JVal.int 1), ("maximum", JVal.int 9)] ∧
    ParseInt "abc" 10 32 = (0, some ⟨"ParseInt", "abc", NumErr.ErrSyntax⟩) ∧
    extractMinimum ⟨"@schemaMinimum", "port", "abc", boundedRoot⟩ =
      some (boundedRoot, some ⟨"port", ⟨"ParseInt", "abc", NumErr.ErrSyntax⟩⟩) ∧
    extractMaximum ⟨"@schemaMaximum", "port", "abc", boundedRoot⟩ =
      some (boundedRoot, some ⟨"port", ⟨"ParseInt", "abc", NumErr.ErrSyntax⟩⟩) ∧
    runHandlers ⟨"@schemaMinimum", "port", "abc", boundedRoot⟩ =
      some (boundedRoot, some [⟨"port", ⟨"ParseInt", "abc", NumErr.ErrSyntax⟩⟩]) ∧
    runHandlers ⟨"@schemaMaximum", "port", "abc", boundedRoot⟩ =
      some (boundedRoot, some [⟨"port", ⟨"ParseInt", "abc", NumErr.ErrSyntax⟩⟩]) :=
  have h := failing_numeric_directive_atomic "port" "abc" boundedRoot _ 0
    ⟨"ParseInt", "abc", NumErr.ErrSyntax⟩ (by rfl) (by rfl)
  ⟨by rfl, by rfl, h.1, h.2.1, h.2.2.1, h.2.2.2.1⟩

/-! ## Arguments and decoding in `RunE` -/

/-- C12: the run returns a usage error exactly when the number of arguments is not
one; with no argument and with two or more it returns the usage error whatever the
collaborators are (nothing is read), and with exactly one argument the error it may
return is no usage error. -/
theorem usage_error_iff (ext : Externals) (args : List String) :
    ((∃ msg, RunE ext args = RunResult.returned (RunError.usage msg)) ↔ args.length ≠ 1) ∧
    (args.length ≠ 1 → ∀ ext' : Externals, RunE ext' args = RunE ext args) ∧
    (args.length = 0 →
      RunE ext args = RunResult.returned (RunError.usage "pass one values yaml file")) ∧
    (2 ≤ args.length →
      RunE ext args = RunResult.returned
        (RunError.usage "schema can be generated only for one values yaml at once")) := by
  match args with
  | [] => exact ⟨⟨fun _ => by simp, fun _ => ⟨_, rfl⟩⟩, fun _ _ => rfl, fun _ => rfl,
      fun h => by simp at h⟩
  | _ :: _ :: _ => exact ⟨⟨fun _ => by simp, fun _ => ⟨_, rfl⟩⟩, fun _ _ => rfl,
      fun h => by simp at h, fun _ => rfl⟩
  | [path] =>
    refine ⟨⟨?_, fun h => by simp at h⟩, fun h => by simp at h, fun h => by simp at h,
      fun h => by simp at h⟩
    rintro ⟨msg, h⟩
    exfalso
    unfold RunE at h
    simp only at h
    split at h
    · cases h
    · split at h
      · cases h
      · split at h
        · cases h
        · cases h
        · split at h <;> cases h

/-- C11 does not hold of the code: `RunE` never looks at the error of
`yaml.Unmarshal`, so a run gives the same result when the decoder's error is replaced
by nil, whereas a failure of `os.ReadFile` or of `json.Unmarshal` is returned; on the
file `a: [1`, which the decoder rejects, the run prints a schema and returns nil. -/
theorem yaml_error_dropped :
    (∀ (ext : Externals) (args : List String),
      RunE ext args =
        RunE { ext with yamlUnmarshal := fun d => ((ext.yamlUnmarshal d).1, none) } args) ∧
    (∀ (ext : Externals) (path err : String), ext.ReadFile path = Except.error err →
      RunE ext [path] = RunResult.returned (RunError.reading path err)) ∧
    (∀ (ext : Externals) (path data err : String), ext.ReadFile path = Except.ok data →
      ext.jsonUnmarshal (ext.schemaString (ext.yamlUnmarshal data).1) = Except.error err →
      RunE ext [path] = RunResult.returned (RunError.reading path err)) ∧
    (rejectingExternals.yamlUnmarshal "a: [1").2 =
      some "yaml: line 1: did not find expected ',' or ']'" ∧
    RunE rejectingExternals ["values.yaml"] =
      RunResult.printed "\x7b\n  \"properties\": \x7b\x7d,\n  \"type\": \"object\"\n\x7d" := by
  refine ⟨fun ext args => ?_, fun ext path err h => ?_, fun ext path data err h₁ h₂ => ?_,
    rfl, by rfl⟩
  · match args with
    | [] => rfl
    | _ :: _ :: _ => rfl
    | [path] => rfl
  · simp only [RunE, h]
  · simp only [RunE, h₁, h₂]

/-! ## One line, one write -/

/-- C14: the four handlers run on the fields of a line. When none panics, they make at
most one write, of the entry that belongs to the token equal to the option, into the
node the key resolves to; every node of the tree keeps every other entry (the tree is
the same but for the four entries, and the same but for that one entry of that one
node); and the joined error holds at most one error. They panic only in the `walk`
of the handler whose token is the option, before any write. Every handler whose
token is not the option returns nil and leaves the tree alone, the two string
handlers never return an error, and the two numeric handlers cannot both return
one. -/
theorem handlers_mutually_exclusive (opt key value : String) (root : JObj) :
    (∀ (t : JObj) (errs : Option (List KeyError)),
      runHandlers ⟨opt, key, value, root⟩ = some (t, errs) →
      (t = root ∨ ∃ k node x, entryOf opt = some k ∧ walk key value root = some node ∧
        t = writeBack (strings.Split key '.') (assign node k x) root) ∧
      (∀ p n, walkLoop p root = some n → ∃ n', walkLoop p t = some n' ∧
        ∀ k', k' ≠ "properties" → ¬ (p = strings.Split key '.' ∧ entryOf opt = some k') →
          index n' k' = index n k') ∧
      eraseNode t = eraseNode root ∧
      (errs = none ∨ ∃ e, errs = some [e])) ∧
    (runHandlers ⟨opt, key, value, root⟩ = none →
      opt ∈ optionTokens ∧ walk key value root = none) ∧
    (∀ r, opt ≠ "@schemaEnum" → extractEnums ⟨opt, key, value, r⟩ = some (r, none)) ∧
    (∀ r, opt ≠ "@schemaRegex" → extractRegex ⟨opt, key, value, r⟩ = some (r, none)) ∧
    (∀ r, opt ≠ "@schemaMinimum" → extractMinimum ⟨opt, key, value, r⟩ = some (r, none)) ∧
    (∀ r, opt ≠ "@schemaMaximum" → extractMaximum ⟨opt, key, value, r⟩ = some (r, none)) ∧
    (∀ r r' e, extractEnums ⟨opt, key, value, r⟩ = some (r', e) → e = none) ∧
    (∀ r r' e, extractRegex ⟨opt, key, value, r⟩ = some (r', e) → e = none) ∧
    (∀ r₃ r₄ t₃ t₄ e₃ e₄, extractMinimum ⟨opt, key, value, r₃⟩ = some (t₃, some e₃) →
      extractMaximum ⟨opt, key, value, r₄⟩ = some (t₄, some e₄) → False) := by
  refine ⟨fun t errs h => ⟨?_, ?_, ?_, ?_⟩, ?_, fun r ho => extractEnums_skip _ _ _ _ ho,
    fun r ho => extractRegex_skip _ _ _ _ ho, fun r ho => extractMinimum_skip _ _ _ _ ho,
    fun r ho => extractMaximum_skip _ _ _ _ ho, ?_, ?_, ?_⟩
  · rcases runHandlers_effect _ _ _ _ _ _ h with ⟨rfl, -⟩ | ⟨-, k, node, x, hk, hw, -, rfl⟩
    · exact Or.inl rfl
    · exact Or.inr ⟨k, node, x, hk, hw, rfl⟩
  · rcases runHandlers_effect _ _ _ _ _ _ h with ⟨rfl, -⟩ | ⟨-, k, node, x, hk, hw, -, rfl⟩
    · exact fun p n hn => ⟨n, hn, fun _ _ _ => rfl⟩
    · intro p n hn
      obtain ⟨n', h₁, h₂⟩ :=
        write_frame _ root node k x (entryOf_some _ _ hk).2.2 hw p n hn
      exact ⟨n', h₁, fun k' hk' hne => h₂ k' hk' (fun e => hne ⟨e.1, e.2 ▸ hk⟩)⟩
  · rcases runHandlers_effect _ _ _ _ _ _ h with ⟨rfl, -⟩ | ⟨-, k, node, x, hk, hw, -, rfl⟩
    · rfl
    · exact eraseNode_writeBack _ _ _ _ hw
        (eraseNode_assign_patched _ _ _ (entryOf_some _ _ hk).2.1)
  · rcases runHandlers_effect _ _ _ _ _ _ h with ⟨-, he⟩ | ⟨he, -⟩
    · exact he
    · exact Or.inl he
  · intro h
    by_cases hopt : opt ∈ optionTokens
    · refine ⟨hopt, ?_⟩
      obtain ⟨k, hk⟩ := entryOf_of_mem opt hopt
      cases hw : walk key value root with
      | none => rfl
      | some node =>
        rw [runHandlers_recognised opt key value k root node hk hw] at h
        cases hp : payloadOf opt value <;> simp [hp] at h
    · simp only [optionTokens, List.mem_cons, List.mem_singleton, List.not_mem_nil, or_false,
        not_or] at hopt
      rw [runHandlers_unrecognised opt key value root hopt.1 hopt.2.1 hopt.2.2.1
        hopt.2.2.2] at h
      cases h
  · intro r r' e he
    unfold extractEnums at he
    split at he
    · split at he
      · cases he
      · simp only [Option.some.injEq, Prod.mk.injEq] at he
        exact he.2.symm
    · simp only [Option.some.injEq, Prod.mk.injEq] at he
      exact he.2.symm
  · intro r r' e he
    unfold extractRegex at he
    split at he
    · split at he
      · cases he
      · simp only [Option.some.injEq, Prod.mk.injEq] at he
        exact he.2.symm
    · simp only [Option.some.injEq, Prod.mk.injEq] at he
      exact he.2.symm
  · intro r₃ r₄ t₃ t₄ e₃ e₄ h₃ h₄
    by_cases ho : opt = "@schemaMinimum"
    · rw [extractMaximum_skip _ _ _ _ (by rw [ho]; decide)] at h₄
      simp at h₄
    · rw [extractMinimum_skip _ _ _ _ ho] at h₃
      simp at h₃

theorem handlers_mutually_exclusive_witness :
    runHandlers ⟨"@schemaMinimum", "port", "5", sampleRoot⟩ =
      some (writeBack ["port"] [("type", JVal.str "integer"), ("minimum", JVal.int 5)]
        sampleRoot, none) ∧
    eraseNode (writeBack ["port"] [("type", JVal.str "integer"), ("minimum", JVal.int 5)]
      sampleRoot) = eraseNode sampleRoot ∧
    extractEnums ⟨"@schemaMinimum", "port", "5", sampleRoot⟩ = some (sampleRoot, none) ∧
    extractRegex ⟨"@schemaMinimum", "port", "5", sampleRoot⟩ = some (sampleRoot, none) ∧
    extractMaximum ⟨"@schemaMinimum", "port", "5", sampleRoot⟩ = some (sampleRoot, none) :=
  have h := handlers_mutually_exclusive "@schemaMinimum" "port" "5" sampleRoot
  ⟨by rfl, (h.1 _ none (by rfl)).2.2.1, h.2.2.1 sampleRoot (by decide),
    h.2.2.2.1 sampleRoot (by decide), h.2.2.2.2.2.1 sampleRoot (by decide)⟩

/-! ## Patching keeps the nodes -/

/-- C13: when the patch loop finishes on a source text, the paths that resolve through
`"properties"` are the same before and after; the tree is the same but for the four
entries `"enum"`, `"pattern"`, `"minimum"`, `"maximum"` of its nodes, so that every
node keeps every other entry, `"type"` and the children under `"properties"`
included; and a node at a path that no directive line of the text addresses keeps
those four entries too. -/
theorem patching_keeps_nodes (data : String) (root root' : JObj)
    (h : patch data root = Patched.finished root') :
    (∀ key value : String, walk key value root' = none ↔ walk key value root = none) ∧
    SameShape root' root ∧
    eraseNode root' = eraseNode root ∧
    (∀ p n, walkLoop p root = some n → ∃ n', walkLoop p root' = some n' ∧
      index n' "type" = index n "type" ∧
      (∀ k, k ≠ "properties" → k ∉ patchedKeys → index n' k = index n k) ∧
      (¬ IsTarget data p → ∀ k, k ≠ "properties" → index n' k = index n k)) := by
  obtain ⟨hs, he, hf⟩ := patchLoop_frame _ root root' h
  refine ⟨fun key value => hs _, hs, he, fun p n hn => ?_⟩
  obtain ⟨n', h₁, h₂, h₃⟩ := hf p n hn
  exact ⟨n', h₁, h₂ "type" (by decide) (by decide), h₂, fun hnt => h₃ hnt⟩

theorem patching_keeps_nodes_witness :
    patch "port: 8080\n## @schemaMinimum port 1\n## @schemaEnum database.host a,b" sampleRoot =
      Patched.finished
        [("type", JVal.str "object"),
         ("properties", JVal.obj
           [("port", JVal.obj [("type", JVal.str "integer"), ("minimum", JVal.int 1)]),
            ("database", JVal.obj
              [("type", JVal.str "object"),
               ("properties", JVal.obj
                 [("host", JVal.obj
                   [("type", JVal.str "string"), ("enum", JVal.strs ["a", "b"])])])])])] ∧
    ¬ IsTarget "port: 8080\n## @schemaMinimum port 1\n## @schemaEnum database.host a,b"
      ["database"] ∧
    eraseNode
        [("type", JVal.str "object"),
         ("properties", JVal.obj
           [("port", JVal.obj [("type", JVal.str "integer"), ("minimum", JVal.int 1)]),
            ("database", JVal.obj
              [("type", JVal.str "object"),
               ("properties", JVal.obj
                 [("host", JVal.obj
                   [("type", JVal.str "string"), ("enum", JVal.strs ["a", "b"])])])])])] =
      eraseNode sampleRoot :=
  ⟨by rfl, by decide,
    (patching_keeps_nodes "port: 8080\n## @schemaMinimum port 1\n## @schemaEnum database.host a,b"
      sampleRoot _ (by rfl)).2.2.1⟩

/-! ## The same directive again -/

/-- C18: two lines that start with `##`, have at least four fields, the same recognised
option and the same key, handled one after the other without error: the tree after
both is the tree the later line gives alone, the entry of the option at the resolved
node holds the value of the later line, a line handled again on the tree it left
gives that tree again, and the loop, which takes the lines in source order, goes on
from the same tree whether or not the earlier line, or a repetition, is there. Also
with other lines in between and after: when the loop finishes on a text, the entry
holds the value of the later line as long as no line after it addresses the same
entry of the same node. -/
theorem last_directive_wins (l₁ l₂ : String) (root t₁ t₂ : JObj)
    (hpre₁ : strings.HasPrefix l₁ "##" = true) (hlen₁ : 3 < (strings.Split l₁ ' ').length)
    (hpre₂ : strings.HasPrefix l₂ "##" = true) (hlen₂ : 3 < (strings.Split l₂ ' ').length)
    (hopt : (strings.Split l₁ ' ').getD 1 "" ∈ optionTokens)
    (hsame : (strings.Split l₂ ' ').getD 1 "" = (strings.Split l₁ ' ').getD 1 "")
    (hkey : (strings.Split l₂ ' ').getD 2 "" = (strings.Split l₁ ' ').getD 2 "")
    (h₁ : processLine l₁ root = some (t₁, none))
    (h₂ : processLine l₂ t₁ = some (t₂, none)) :
    (∀ (pre post : List String) (cur final : JObj),
      patchLoop (pre ++ l₂ :: post) cur = Patched.finished final →
      (∀ l' ∈ post,
        ¬ (LineTarget l' (strings.Split ((strings.Split l₂ ' ').getD 2 "") '.') ∧
          entryOf ((strings.Split l' ' ').getD 1 "") =
            entryOf ((strings.Split l₂ ' ').getD 1 ""))) →
      ∃ k x node, entryOf ((strings.Split l₂ ' ').getD 1 "") = some k ∧
        payloadOf ((strings.Split l₂ ' ').getD 1 "") ((strings.Split l₂ ' ').getD 3 "") =
          Except.ok x ∧
        walkLoop (strings.Split ((strings.Split l₂ ' ').getD 2 "") '.') final = some node ∧
        index node k = x) ∧
    processLine l₂ root = some (t₂, none) ∧
    (∃ k x node, entryOf ((strings.Split l₂ ' ').getD 1 "") = some k ∧
      payloadOf ((strings.Split l₂ ' ').getD 1 "") ((strings.Split l₂ ' ').getD 3 "") =
        Except.ok x ∧
      walk ((strings.Split l₂ ' ').getD 2 "") ((strings.Split l₂ ' ').getD 3 "") t₂ =
        some node ∧
      index node k = x) ∧
    processLine l₁ t₁ = some (t₁, none) ∧
    processLine l₂ t₂ = some (t₂, none) ∧
    (∀ rest, patchLoop (l₁ :: l₂ :: rest) root = patchLoop rest t₂ ∧
      patchLoop (l₂ :: rest) root = patchLoop rest t₂ ∧
      patchLoop (l₁ :: l₁ :: rest) root = patchLoop (l₁ :: rest) root) := by
  refine ⟨fun pre post cur final h hl =>
    patchLoop_last_wins pre post l₂ cur final hpre₂ hlen₂ (by rw [hsame]; exact hopt) h hl, ?_⟩
  have e₁ := processLine_matching l₁ root hpre₁ hlen₁
  have e₁' := processLine_matching l₁ t₁ hpre₁ hlen₁
  have e₂ := processLine_matching l₂ t₁ hpre₂ hlen₂
  have e₂' := processLine_matching l₂ root hpre₂ hlen₂
  have e₂'' := processLine_matching l₂ t₂ hpre₂ hlen₂
  rw [hsame, hkey] at e₂ e₂' e₂''
  rw [hsame, hkey]
  generalize (strings.Split l₁ ' ').getD 1 "" = opt at *
  generalize (strings.Split l₁ ' ').getD 2 "" = key at *
  generalize (strings.Split l₁ ' ').getD 3 "" = v₁ at *
  generalize (strings.Split l₂ ' ').getD 3 "" = v₂ at *
  rw [e₁] at h₁
  obtain ⟨k, node, x₁, hk, hw, hp₁, rfl⟩ := runHandlers_success opt key v₁ root t₁ hopt h₁
  rw [e₂] at h₂
  have hw₂ : walk key v₂ root = some node := hw
  have hk' := (entryOf_some _ _ hk)
  cases hp₂ : payloadOf opt v₂ with
  | error e =>
    have hw' : walk key v₂ (writeBack (strings.Split key '.') (assign node k x₁) root) =
        some (assign node k x₁) := walkLoop_writeBack _ _ _ _ hw
    rw [runHandlers_recognised opt key v₂ k _ _ hk hw'] at h₂
    simp [hp₂] at h₂
  | ok x₂ =>
    rw [runHandlers_after_write opt key v₂ k root node x₁ x₂ hk hw₂ hp₂] at h₂
    simp only [Option.some.injEq, Prod.mk.injEq, and_true] at h₂
    subst h₂
    have a₁ : processLine l₂ root =
        some (writeBack (strings.Split key '.') (assign node k x₂) root, none) := by
      rw [e₂', runHandlers_recognised opt key v₂ k root node hk hw₂]
      simp only [hp₂]
    have a₂ : processLine l₁ (writeBack (strings.Split key '.') (assign node k x₁) root) =
        some (writeBack (strings.Split key '.') (assign node k x₁) root, none) := by
      rw [e₁']
      exact runHandlers_after_write opt key v₁ k root node x₁ x₁ hk hw hp₁
    have a₃ : processLine l₂ (writeBack (strings.Split key '.') (assign node k x₂) root) =
        some (writeBack (strings.Split key '.') (assign node k x₂) root, none) := by
      rw [e₂'']
      exact runHandlers_after_write opt key v₂ k root node x₂ x₂ hk hw₂ hp₂
    have a₀ : processLine l₁ root =
        some (writeBack (strings.Split key '.') (assign node k x₁) root, none) := by
      rw [e₁]
      exact h₁
    have a₄ : processLine l₂ (writeBack (strings.Split key '.') (assign node k x₁) root) =
        some (writeBack (strings.Split key '.') (assign node k x₂) root, none) := by
      rw [e₂]
      exact runHandlers_after_write opt key v₂ k root node x₁ x₂ hk hw₂ hp₂
    refine ⟨a₁, ⟨k, x₂, assign node k x₂, hk, rfl, walkLoop_writeBack _ _ _ _ hw₂,
      index_assign_same _ _ _⟩, a₂, a₃, fun rest => ⟨?_, ?_, ?_⟩⟩
    · simp only [patchLoop, a₀, a₄]
    · simp only [patchLoop, a₁]
    · simp only [patchLoop, a₀, a₂]

theorem last_directive_wins_witness :
    processLine "## @schemaMinimum port 1" sampleRoot =
      some (writeBack ["port"] [("type", JVal.str "integer"), ("minimum", JVal.int 1)]
        sampleRoot, none) ∧
    processLine "## @schemaMinimum port 7"
        (writeBack ["port"] [("type", JVal.str "integer"), ("minimum", JVal.int 1)]
          sampleRoot) =
      some (writeBack ["port"] [("type", JVal.str "integer"), ("minimum", JVal.int 7)]
        sampleRoot, none) ∧
    processLine "## @schemaMinimum port 7" sampleRoot =
      some (writeBack ["port"] [("type", JVal.str "integer"), ("minimum", JVal.int 7)]
        sampleRoot, none) ∧
    processLine "## @schemaMinimum port 1"
        (writeBack ["port"] [("type", JVal.str "integer"), ("minimum", JVal.int 1)]
          sampleRoot) =
      some (writeBack ["port"] [("type", JVal.str "integer"), ("minimum", JVal.int 1)]
        sampleRoot, none) ∧
    walk "port" "7"
        (writeBack ["port"] [("type", JVal.str "integer"), ("minimum", JVal.int 7)]
          sampleRoot) =
      some [("type", JVal.str "integer"), ("minimum", JVal.int 7)] :=
  have h := last_directive_wins "## @schemaMinimum port 1" "## @schemaMinimum port 7"
    sampleRoot
    (writeBack ["port"] [("type", JVal.str "integer"), ("minimum", JVal.int 1)] sampleRoot)
    (writeBack ["port"] [("type", JVal.str "integer"), ("minimum", JVal.int 7)] sampleRoot)
    (by decide) (by decide) (by decide) (by decide) (by decide) (by decide) (by decide)
    (by rfl) (by rfl)
  ⟨by rfl, by rfl, h.2.1, h.2.2.2.1, by rfl⟩

end HelmSchemaGen
